import Mathlib

/-!
Verification development for the two-pass chunked watershed pipelines of
`dask_image_watershed.ipynb` (DirectSharing, namespace `V1`) and
`dask_image_watershed_v2.ipynb` (SentinelBasinSharing, namespace `V2`).

The embedding is one-dimensional: the domain is a `List ℕ` of elevation
values and the chunk grid is a list of contiguous chunks, so each chunk has
a left and a right neighbor (or a domain edge).  All helper functions of
the notebooks (`grab_overlap`, `mask_overlap`, `build_full_markers`,
`remove_label`, `compose`) are translated at their 1-D instantiation; the
dask primitives `overlap` / `trim_overlap` and the flood-fill watershed
(spec section 4.3) are not part of the repository's sources and are
modelled from the spec.  Elevation values are natural numbers: the
algorithms only ever compare elevations.
-/

/-- Boundary policy of a halo exchange.  Modelled from the spec:
`Nearest` replicates the nearest interior value at a true domain edge,
`Constant v` fills the domain-edge halo with the fixed value `v`
(spec section 4.2; in the notebooks these are the dask `overlap`
arguments `boundary='nearest'` and `boundary=boundary_label`). -/
inductive BPolicy where
  | nearest : BPolicy
  | const : ℕ → BPolicy
deriving Repr, DecidableEq

/-- Fuel-indexed worker for `chunkList`; the fuel is structural so that the
kernel can evaluate concrete instances. -/
def chunkListF {α : Type} : ℕ → ℕ → List α → List (List α)
  | 0, _, _ => []
  | _ + 1, _, [] => []
  | _ + 1, 0, xs => [xs]
  | fuel + 1, c + 1, x :: xs => ((x :: xs).take (c + 1)) :: chunkListF fuel (c + 1) (xs.drop c)

/-- Modelled from the spec (GridGeometry / dask `da.from_array(..., chunks=clen)`,
which is not part of the repository's sources): split a list into
contiguous chunks of length `c` (a ragged final chunk is allowed). -/
def chunkList {α : Type} (c : ℕ) (l : List α) : List (List α) :=
  chunkListF (l.length + 1) c l

/-- Last `d` elements of a list (the inner halo slice a chunk shows to its
right neighbor). -/
def takeLast (d : ℕ) (xs : List α) : List α := xs.drop (xs.length - d)

/-- Halo fill at the left domain edge. Modelled from the spec:
`Nearest` replicates the nearest interior value. -/
def edgeFillL (p : BPolicy) (d : ℕ) (core : List ℕ) : List ℕ :=
  match p with
  | BPolicy.nearest => List.replicate d (core.headD 0)
  | BPolicy.const v => List.replicate d v

/-- Halo fill at the right domain edge. -/
def edgeFillR (p : BPolicy) (d : ℕ) (core : List ℕ) : List ℕ :=
  match p with
  | BPolicy.nearest => List.replicate d (core.getLastD 0)
  | BPolicy.const v => List.replicate d v

/-- Left halo of chunk `q`: the last `d` cells of its left neighbor, or the
boundary fill at the left domain edge. -/
def padL (d : ℕ) (p : BPolicy) (chs : List (List ℕ)) (q : ℕ) : List ℕ :=
  if q = 0 then edgeFillL p d (chs.getD q []) else takeLast d (chs.getD (q - 1) [])

/-- Right halo of chunk `q`: the first `d` cells of its right neighbor, or
the boundary fill at the right domain edge. -/
def padR (d : ℕ) (p : BPolicy) (chs : List (List ℕ)) (q : ℕ) : List ℕ :=
  if q + 1 = chs.length then edgeFillR p d (chs.getD q []) else (chs.getD (q + 1) []).take d

/-- Modelled from the spec (HaloExchange / dask `da.overlap.overlap`, not part
of the repository's sources): every chunk is enlarged by `d` cells on each
side, copied from the adjacent chunk, or filled by the boundary policy at a
domain edge (spec section 4.2). -/
def overlapL (d : ℕ) (p : BPolicy) (chs : List (List ℕ)) : List (List ℕ) :=
  (List.range chs.length).map fun q => padL d p chs q ++ chs.getD q [] ++ padR d p chs q

/-- Trim a halo of depth `d` off both ends of one chunk. -/
def trimChunk (d : ℕ) (ch : List α) : List α := (ch.drop d).take (ch.length - 2 * d)

/-- Modelled from the spec (Compositor `trim` / dask `da.overlap.trim_overlap`,
not part of the repository's sources): strip the halo ring of depth `d`
from every chunk. -/
def trimL (d : ℕ) (chs : List (List α)) : List (List α) := chs.map (trimChunk d)

/-- Ring predicate shared by `grab_overlap` and `mask_overlap`: the 1-D
instantiation of the numpy index `(r[:depth], r[-depth:])`.  For
`depth = 0` the numpy slice `r[-0:]` is the whole axis, hence the final
disjunct. -/
def inRing (len d i : ℕ) : Bool :=
  decide (i < d) || decide (len - d ≤ i) || decide (d = 0)

/-- Translation of `grab_overlap` (v1 notebook): a zero array of the chunk's
shape whose depth-`d` ring is copied from the chunk. -/
def grab_overlap (chunk : List ℕ) (depth : ℕ) : List ℕ :=
  (List.range chunk.length).map fun i =>
    if inRing chunk.length depth i then chunk.getD i 0 else 0

/-- Translation of `mask_overlap` (v2 notebook): a zero array of the chunk's
shape whose depth-`d` ring is set to the constant `lab`. -/
def mask_overlap (chunk : List ℕ) (depth lab : ℕ) : List ℕ :=
  (List.range chunk.length).map fun i =>
    if inRing chunk.length depth i then lab else 0

/-- Translation of `remove_label` (v2 notebook): reset every cell equal to
`lab` to `0`. -/
def remove_label (chunk : List ℕ) (lab : ℕ) : List ℕ :=
  chunk.map fun x => if x = lab then 0 else x

/-- Translation of `compose` (v2 notebook): start from a copy of `fp_chunk`
and overwrite every mask-true cell with the `sp_chunk` value. -/
def compose (fp_chunk sp_chunk : List ℕ) (mask_chunk : List Bool) : List ℕ :=
  (List.range fp_chunk.length).map fun i =>
    if mask_chunk.getD i false then sp_chunk.getD i 0 else fp_chunk.getD i 0

/-- Translation of `boundary_label = ws_markers.max() + 1` (v2 notebook). -/
def boundary_label (markers : List ℕ) : ℕ := markers.foldr max 0 + 1

/-- Error raised by the local watershed.  Modelled from the spec
(section 4.3): `EmptyMarkers` when no marker is nonzero. -/
inductive WSErr where
  | emptyMarkers : WSErr
deriving Repr, DecidableEq

/-- Priority-queue entry `(elevation key, insertion key, cell index)`. -/
abbrev QEntry := ℕ × ℕ × ℕ

/-- Strict lexicographic order on `(elevation, insertion)` keys. -/
def keyLt (a b : QEntry) : Bool :=
  decide (a.1 < b.1) || (decide (a.1 = b.1) && decide (a.2.1 < b.2.1))

/-- State of one flood-fill run: current label image, priority queue of
frontier cells, and the insertion counter used to break elevation ties. -/
structure WS where
  labels : List ℕ
  queue : List QEntry
  ctr : ℕ
deriving Repr

/-- Select the queue entry with the least `(elevation, insertion)` key and
return it together with the remaining queue. -/
def selMin : List QEntry → Option (QEntry × List QEntry)
  | [] => none
  | e :: es =>
    match selMin es with
    | none => some (e, [])
    | some (m, rest) => if keyLt m e then some (m, e :: rest) else some (e, es)

/-- Mask eligibility: with no mask every cell is eligible, otherwise only
mask-true cells are. -/
def maskOk : Option (List Bool) → ℕ → Bool
  | none, _ => true
  | some m, i => m.getD i false

/-- Flood one neighbor cell `nb` with the label `lab`: if `nb` exists, is
unlabeled and is mask-eligible, assign it `lab` and push it keyed by its
own elevation and the next insertion number.  Modelled from the spec
(section 4.3). -/
def pushNb (elev : List ℕ) (mask : Option (List Bool)) (lab nb : ℕ) (st : WS) : WS :=
  if nb < st.labels.length ∧ st.labels.getD nb 0 = 0 ∧ maskOk mask nb = true then
    { labels := st.labels.set nb lab
      queue := (elev.getD nb 0, st.ctr, nb) :: st.queue
      ctr := st.ctr + 1 }
  else st

/-- One flood step: pop the least-key cell and flood its (1-D) neighbors,
left first.  Returns `none` when the queue is empty.  Modelled from the
spec (section 4.3). -/
def step (elev : List ℕ) (mask : Option (List Bool)) (st : WS) : Option WS :=
  match selMin st.queue with
  | none => none
  | some (e, rest) =>
    let c := e.2.2
    let lab := st.labels.getD c 0
    let st1 : WS := { labels := st.labels, queue := rest, ctr := st.ctr }
    let st2 := if c = 0 then st1 else pushNb elev mask lab (c - 1) st1
    some (pushNb elev mask lab (c + 1) st2)

/-- Run the flood for at most `f` steps. -/
def runF (elev : List ℕ) (mask : Option (List Bool)) : ℕ → WS → WS
  | 0, st => st
  | f + 1, st =>
    match step elev mask st with
    | none => st
    | some st' => runF elev mask f st'

/-- Initial flood state: the labels start as the marker image and every
cell with a nonzero marker is enqueued, keyed by its elevation, in index
order (insertion keys are the cell indices, all smaller than the starting
counter).  Modelled from the spec (section 4.3). -/
def initWS (elev markers : List ℕ) : WS where
  labels := markers
  queue := (List.range markers.length).filterMap fun i =>
    if markers.getD i 0 = 0 then none else some (elev.getD i 0, i, i)
  ctr := markers.length

/-- Modelled from the spec (section 4.3, LocalWatershed, which the
notebooks import from skimage): the priority-flood watershed.  Fails with
`EmptyMarkers` when no marker is nonzero; otherwise runs the flood to
completion (the fuel `markers.length + 1` exceeds the number of possible
steps, since every push permanently labels a previously unlabeled cell). -/
def flood (elev markers : List ℕ) (mask : Option (List Bool)) : Except WSErr (List ℕ) :=
  if markers.all (fun x => x == 0) then Except.error WSErr.emptyMarkers
  else Except.ok (runF elev mask (markers.length + 1) (initWS elev markers)).labels

/-- Modelled from the spec (section 7): the caller recovers from
`EmptyMarkers` by treating the chunk as an all-zero output chunk. -/
def floodOr0 (elev markers : List ℕ) (mask : Option (List Bool)) : List ℕ :=
  match flood elev markers mask with
  | Except.ok l => l
  | Except.error _ => List.replicate markers.length 0

/-- Pointwise combination of three lists, truncating to the shortest. -/
def zipWith3 (f : α → β → γ → δ) : List α → List β → List γ → List δ
  | a :: as, b :: bs, c :: cs => f a b c :: zipWith3 f as bs cs
  | _, _, _ => []

namespace V1

/-- Halo-padded elevation chunks (`hmax_op` in the v1 notebook). -/
def hmax_op (elev : List ℕ) (clen d : ℕ) : List (List ℕ) :=
  overlapL d BPolicy.nearest (chunkList clen elev)

/-- Halo-padded original marker chunks (`ws_markers_op` in the v1 notebook). -/
def ws_markers_op (markers : List ℕ) (clen d : ℕ) : List (List ℕ) :=
  overlapL d BPolicy.nearest (chunkList clen markers)

/-- First-pass watershed per chunk (`ws_fp` in the v1 notebook). -/
def ws_fp (elev markers : List ℕ) (clen d : ℕ) : List (List ℕ) :=
  List.zipWith (fun e m => floodOr0 e m none) (hmax_op elev clen d) (ws_markers_op markers clen d)

/-- Trimmed first-pass results, re-exchanged (`ws_neighbors` in the v1
notebook). -/
def ws_neighbors (elev markers : List ℕ) (clen d : ℕ) : List (List ℕ) :=
  overlapL d BPolicy.nearest (trimL d (ws_fp elev markers clen d))

/-- Translation of `build_full_markers` (v1 notebook): the ring of the
first-pass neighbor data, overridden by the exchanged original markers
wherever those are positive. -/
def build_full_markers (labels ws : List ℕ) (depth : ℕ) : List ℕ :=
  (List.range ws.length).map fun i =>
    if 0 < labels.getD i 0 then labels.getD i 0 else (grab_overlap ws depth).getD i 0

/-- Merged second-pass markers (`full_labels_op` in the v1 notebook). -/
def full_labels_op (elev markers : List ℕ) (clen d : ℕ) : List (List ℕ) :=
  List.zipWith (fun m nb => build_full_markers m nb d)
    (ws_markers_op markers clen d) (ws_neighbors elev markers clen d)

/-- Second-pass watershed per chunk (`ws_sp_op` in the v1 notebook). -/
def ws_sp_op (elev markers : List ℕ) (clen d : ℕ) : List (List ℕ) :=
  List.zipWith (fun e m => floodOr0 e m none) (hmax_op elev clen d) (full_labels_op elev markers clen d)

/-- Final reassembled label map (`ws_final` in the v1 notebook): trim the
halos of the second pass and concatenate the chunks. -/
def ws_final (elev markers : List ℕ) (clen d : ℕ) : List ℕ :=
  (trimL d (ws_sp_op elev markers clen d)).flatten

end V1

namespace V2

/-- Halo-padded elevation chunks (`hmax_op` in the v2 notebook). -/
def hmax_op (elev : List ℕ) (clen d : ℕ) : List (List ℕ) :=
  overlapL d BPolicy.nearest (chunkList clen elev)

/-- Translation of `build_full_markers` (v2 notebook): the sentinel ring,
overridden by the exchanged markers wherever those are positive. -/
def build_full_markers (labels : List ℕ) (depth lab : ℕ) : List ℕ :=
  (List.range labels.length).map fun i =>
    if 0 < labels.getD i 0 then labels.getD i 0 else (mask_overlap labels depth lab).getD i 0

/-- First-pass marker chunks (`ws_markers_op` in the v2 notebook): original
markers exchanged with constant sentinel boundary, then merged with the
sentinel ring by `build_full_markers`. -/
def ws_markers_op (markers : List ℕ) (clen d : ℕ) : List (List ℕ) :=
  (overlapL d (BPolicy.const (boundary_label markers)) (chunkList clen markers)).map
    fun m => build_full_markers m d (boundary_label markers)

/-- First-pass watershed per chunk (`ws_fp` in the v2 notebook). -/
def ws_fp (elev markers : List ℕ) (clen d : ℕ) : List (List ℕ) :=
  List.zipWith (fun e m => floodOr0 e m none) (hmax_op elev clen d) (ws_markers_op markers clen d)

/-- Second-pass marker chunks (`ws_markers_sp` in the v2 notebook): strip
the sentinel from the first-pass result, trim, and re-exchange with the
nearest policy. -/
def ws_markers_sp (elev markers : List ℕ) (clen d : ℕ) : List (List ℕ) :=
  overlapL d BPolicy.nearest
    (trimL d ((ws_fp elev markers clen d).map fun ch => remove_label ch (boundary_label markers)))

/-- Boundary mask (`ws_mask` in the v2 notebook): true where the first pass
produced the sentinel. -/
def ws_mask (elev markers : List ℕ) (clen d : ℕ) : List (List Bool) :=
  (ws_fp elev markers clen d).map fun ch => ch.map fun x => decide (x = boundary_label markers)

/-- Second-pass watershed per chunk, masked to the boundary mask (`ws_sp`
in the v2 notebook). -/
def ws_sp (elev markers : List ℕ) (clen d : ℕ) : List (List ℕ) :=
  zipWith3 (fun e m k => floodOr0 e m (some k))
    (hmax_op elev clen d) (ws_markers_sp elev markers clen d) (ws_mask elev markers clen d)

/-- Final reassembled label map (`ws_final` in the v2 notebook): compose
first and second passes under the mask, trim halos, concatenate. -/
def ws_final (elev markers : List ℕ) (clen d : ℕ) : List ℕ :=
  (trimL d (zipWith3 compose (ws_fp elev markers clen d) (ws_sp elev markers clen d)
    (ws_mask elev markers clen d))).flatten

end V2

/-! ### Basic structural lemmas about chunking, halo exchange and trim -/

theorem getD_mem_of_lt {α} (l : List α) (dflt : α) {i : ℕ} (h : i < l.length) :
    l.getD i dflt ∈ l := by
  rw [List.getD_eq_getElem _ _ h]
  exact l.getElem_mem h

theorem takeLast_length {α} (d : ℕ) (xs : List α) (h : d ≤ xs.length) :
    (takeLast d xs).length = d := by
  simp only [takeLast, List.length_drop]
  omega

theorem edgeFillL_length (p : BPolicy) (d : ℕ) (core : List ℕ) :
    (edgeFillL p d core).length = d := by
  cases p <;> simp [edgeFillL]

theorem edgeFillR_length (p : BPolicy) (d : ℕ) (core : List ℕ) :
    (edgeFillR p d core).length = d := by
  cases p <;> simp [edgeFillR]

theorem padL_length (d : ℕ) (p : BPolicy) (chs : List (List ℕ)) (q : ℕ)
    (h : ∀ ch ∈ chs, d ≤ ch.length) (hq : q < chs.length) :
    (padL d p chs q).length = d := by
  unfold padL
  split
  · exact edgeFillL_length p d _
  · exact takeLast_length d _ (h _ (getD_mem_of_lt chs [] (by omega)))

theorem padR_length (d : ℕ) (p : BPolicy) (chs : List (List ℕ)) (q : ℕ)
    (h : ∀ ch ∈ chs, d ≤ ch.length) (hq : q < chs.length) :
    (padR d p chs q).length = d := by
  unfold padR
  split
  · exact edgeFillR_length p d _
  · rename_i hne
    have hlt : q + 1 < chs.length := by omega
    simp only [List.length_take]
    exact Nat.min_eq_left (h _ (getD_mem_of_lt chs [] hlt))

theorem overlapL_length (d : ℕ) (p : BPolicy) (chs : List (List ℕ)) :
    (overlapL d p chs).length = chs.length := by
  simp [overlapL]

theorem overlapL_getD (d : ℕ) (p : BPolicy) (chs : List (List ℕ)) {q : ℕ}
    (hq : q < chs.length) :
    (overlapL d p chs).getD q [] = padL d p chs q ++ chs.getD q [] ++ padR d p chs q := by
  have hq2 : q < (overlapL d p chs).length := by rw [overlapL_length]; exact hq
  rw [List.getD_eq_getElem _ _ hq2]
  simp [overlapL]

theorem trimChunk_of_pads {α} (dpt : ℕ) (a b c : List α)
    (ha : a.length = dpt) (hc : c.length = dpt) :
    trimChunk dpt (a ++ b ++ c) = b := by
  unfold trimChunk
  have h1 : (a ++ b ++ c).drop dpt = b ++ c := by
    rw [List.append_assoc, ← ha, List.drop_left]
  have h2 : (a ++ b ++ c).length - 2 * dpt = b.length := by
    simp only [List.length_append]
    omega
  rw [h1, h2, List.take_left]

theorem trimL_length {α} (d : ℕ) (chs : List (List α)) :
    (trimL d chs).length = chs.length := by
  simp [trimL]

/-- Claim C5 (Trim-after-exchange identity): for every chunked array and
every halo depth `d` satisfying the geometry invariant (`d` at most half of
every chunk extent), trimming a depth-`d` halo immediately after exchanging
a depth-`d` halo restores the chunked array exactly — every core cell keeps
its value and every chunk keeps its original core shape — under any
boundary policy. -/
theorem claim_C5_trim_after_exchange (d : ℕ) (p : BPolicy) (chs : List (List ℕ))
    (hgeo : ∀ ch ∈ chs, 2 * d ≤ ch.length) :
    trimL d (overlapL d p chs) = chs := by
  have hd : ∀ ch ∈ chs, d ≤ ch.length := fun ch hch => by
    have := hgeo ch hch; omega
  apply List.ext_getElem
  · rw [trimL_length, overlapL_length]
  intro q hq1 hq2
  have hq : q < chs.length := hq2
  have e1 : q < (overlapL d p chs).length := by rw [overlapL_length]; exact hq
  show (trimL d (overlapL d p chs))[q] = chs[q]
  have hmap : (trimL d (overlapL d p chs)).getD q [] =
      trimChunk d ((overlapL d p chs).getD q []) := by
    rw [trimL, List.getD_eq_getElem _ []
        (show q < ((overlapL d p chs).map (trimChunk d)).length by simpa using e1),
      List.getElem_map, List.getD_eq_getElem _ _ e1]
  rw [← List.getD_eq_getElem (trimL d (overlapL d p chs)) [] hq1,
    ← List.getD_eq_getElem chs [] hq, hmap, overlapL_getD d p chs hq,
    trimChunk_of_pads d _ _ _ (padL_length d p chs q hd hq) (padR_length d p chs q hd hq)]

/-- Witness for claim C5 at a concrete input. -/
theorem claim_C5_trim_after_exchange_witness :
    trimL 1 (overlapL 1 BPolicy.nearest [[1, 2], [3, 4]]) = [[1, 2], [3, 4]] :=
  claim_C5_trim_after_exchange 1 BPolicy.nearest [[1, 2], [3, 4]] (by decide)

/-! ### Claim C9: EmptyMarkers behaviour -/

/-- Claim C9 (EmptyMarkers behaviour): when a chunk's marker image contains
no nonzero marker, the local watershed invocation fails with
`EmptyMarkers`, and the recovery wrapper used by every pipeline stage
(`floodOr0`) turns that chunk into an all-zero output chunk instead of
aborting the run. -/
theorem claim_C9_empty_markers (elev markers : List ℕ) (mask : Option (List Bool))
    (h : ∀ m ∈ markers, m = 0) :
    flood elev markers mask = Except.error WSErr.emptyMarkers ∧
    floodOr0 elev markers mask = List.replicate markers.length 0 := by
  have hall : markers.all (fun x => x == 0) = true := by
    rw [List.all_eq_true]
    intro x hx
    simpa using h x hx
  constructor
  · rw [flood, if_pos hall]
  · rw [floodOr0, flood, if_pos hall]

/-- Witness for claim C9 at a concrete input. -/
theorem claim_C9_empty_markers_witness :
    flood [5, 7] [0, 0] none = Except.error WSErr.emptyMarkers ∧
    floodOr0 [5, 7] [0, 0] none = List.replicate 2 0 :=
  claim_C9_empty_markers [5, 7] [0, 0] none (by decide)

/-! ### Claim C10: the per-chunk helpers allocate fresh arrays and do not
mutate their arguments.

The numpy heap is modelled explicitly: a heap is a list of arrays
addressed by index, `out = x.copy()` allocates a fresh array at a fresh
address, and the masked in-place assignments of `compose` and
`remove_label` write only to that fresh address. -/

/-- Heap of numpy arrays, addressed by allocation index. -/
abbrev Heap := List (List ℕ)

/-- Read the array stored at address `i`. -/
def readH (h : Heap) (i : ℕ) : List ℕ := h.getD i []

/-- Overwrite the array stored at address `i`. -/
def writeH (h : Heap) (i : ℕ) (v : List ℕ) : Heap := h.set i v

/-- Allocate a fresh array holding `v`; its address is the old heap size. -/
def allocH (h : Heap) (v : List ℕ) : Heap × ℕ := (h ++ [v], h.length)

/-- Imperative translation of `remove_label` (v2 notebook):
`out = chunk.copy()` then `out[out == label] = 0`, returning `out`. -/
def remove_labelP (h : Heap) (chunk lab : ℕ) : Heap × ℕ :=
  let h1 := (allocH h (readH h chunk)).1
  let out := (allocH h (readH h chunk)).2
  (writeH h1 out ((readH h1 out).map fun x => if x = lab then 0 else x), out)

/-- Imperative translation of `compose` (v2 notebook):
`out = fp_chunk.copy()` then `out[mask_chunk] = sp_chunk[mask_chunk]`,
returning `out`. -/
def composeP (h : Heap) (fp sp : ℕ) (mask : List Bool) : Heap × ℕ :=
  let h1 := (allocH h (readH h fp)).1
  let out := (allocH h (readH h fp)).2
  (writeH h1 out ((List.range (readH h1 out).length).map fun i =>
    if mask.getD i false then (readH h1 sp).getD i 0 else (readH h1 out).getD i 0), out)

theorem readH_append_lt (h : Heap) (v : List ℕ) {j : ℕ} (hj : j < h.length) :
    readH (h ++ [v]) j = readH h j := by
  unfold readH
  exact List.getD_append h [v] [] j hj

theorem readH_append_self (h : Heap) (v : List ℕ) :
    readH (h ++ [v]) h.length = v := by
  unfold readH
  rw [List.getD_append_right h [v] [] h.length (le_refl _)]
  simp

theorem readH_write_ne (h : Heap) (i j : ℕ) (v : List ℕ) (hij : i ≠ j) :
    readH (writeH h i v) j = readH h j := by
  unfold readH writeH
  rw [List.getD_eq_getElem?_getD, List.getElem?_set_ne hij, ← List.getD_eq_getElem?_getD]

theorem readH_write_self (h : Heap) (i : ℕ) (v : List ℕ) (hi : i < h.length) :
    readH (writeH h i v) i = v := by
  unfold readH writeH
  rw [List.getD_eq_getElem?_getD, List.getElem?_set_eq_of_lt v hi]
  rfl

/-- Claim C10 (per-chunk helpers do not mutate their arguments): in the
explicit-heap model of the numpy code, `compose` and `remove_label` return
freshly allocated arrays (their addresses differ from every pre-existing
address, in particular from every argument), every pre-existing array —
in particular each argument — still holds exactly its pre-call values
afterwards, and the fresh output holds the pointwise result; for `compose`
the output moreover equals `fp_chunk` at every cell where `mask_chunk` is
false. -/
theorem claim_C10_helpers_pure (h : Heap) (fp sp chunk lab : ℕ) (mask : List Bool)
    (hfp : fp < h.length) (hsp : sp < h.length) (hch : chunk < h.length) :
    ((composeP h fp sp mask).2 ≠ fp ∧ (composeP h fp sp mask).2 ≠ sp ∧
      (∀ j < h.length, readH (composeP h fp sp mask).1 j = readH h j) ∧
      readH (composeP h fp sp mask).1 (composeP h fp sp mask).2
        = compose (readH h fp) (readH h sp) mask ∧
      (∀ i < (readH h fp).length, mask.getD i false = false →
        (readH (composeP h fp sp mask).1 (composeP h fp sp mask).2).getD i 0
          = (readH h fp).getD i 0)) ∧
    ((remove_labelP h chunk lab).2 ≠ chunk ∧
      (∀ j < h.length, readH (remove_labelP h chunk lab).1 j = readH h j) ∧
      readH (remove_labelP h chunk lab).1 (remove_labelP h chunk lab).2
        = remove_label (readH h chunk) lab) := by
  have hlen : (h ++ [readH h fp]).length = h.length + 1 := by simp
  constructor
  · have hout : (composeP h fp sp mask).2 = h.length := rfl
    have hfrozen : ∀ j < h.length, readH (composeP h fp sp mask).1 j = readH h j := by
      intro j hj
      show readH (writeH (h ++ [readH h fp]) h.length _) j = readH h j
      rw [readH_write_ne _ _ _ _ (by omega), readH_append_lt h _ hj]
    have hread0 : readH ((allocH h (readH h fp)).1) ((allocH h (readH h fp)).2)
        = readH h fp := readH_append_self h _
    have hreadsp : readH ((allocH h (readH h fp)).1) sp = readH h sp :=
      readH_append_lt h _ hsp
    have houtval : readH (composeP h fp sp mask).1 (composeP h fp sp mask).2
        = compose (readH h fp) (readH h sp) mask := by
      show readH (writeH (h ++ [readH h fp]) h.length _) h.length = _
      rw [readH_write_self _ _ _ (by simp)]
      show (List.range (readH ((allocH h (readH h fp)).1) ((allocH h (readH h fp)).2)).length).map _ = _
      rw [compose]
      congr 1 <;> rw [hread0]
      funext i
      rw [hreadsp]
    refine ⟨by rw [hout]; omega, by rw [hout]; omega, hfrozen, houtval, ?_⟩
    intro i hi hmask
    rw [houtval, compose, List.getD_eq_getElem _ _ (by simpa using hi)]
    rw [List.getElem_map]
    simp only [List.getElem_range, hmask]
    rw [if_neg (by simp), List.getD_eq_getElem _ _ hi]
  · have hout : (remove_labelP h chunk lab).2 = h.length := rfl
    have hfrozen : ∀ j < h.length, readH (remove_labelP h chunk lab).1 j = readH h j := by
      intro j hj
      show readH (writeH (h ++ [readH h chunk]) h.length _) j = readH h j
      rw [readH_write_ne _ _ _ _ (by omega), readH_append_lt h _ hj]
    have hread0 : readH ((allocH h (readH h chunk)).1) ((allocH h (readH h chunk)).2)
        = readH h chunk := readH_append_self h _
    refine ⟨by rw [hout]; omega, hfrozen, ?_⟩
    show readH (writeH (h ++ [readH h chunk]) h.length _) h.length = _
    rw [readH_write_self _ _ _ (by simp)]
    show (readH ((allocH h (readH h chunk)).1) ((allocH h (readH h chunk)).2)).map _ = _
    rw [hread0, remove_label]

/-- Witness for claim C10 at a concrete heap. -/
theorem claim_C10_helpers_pure_witness :
    (((composeP [[1, 2], [3, 4], [9]] 0 1 [true, false]).2 ≠ 0 ∧
      (composeP [[1, 2], [3, 4], [9]] 0 1 [true, false]).2 ≠ 1 ∧
      (∀ j < 3, readH (composeP [[1, 2], [3, 4], [9]] 0 1 [true, false]).1 j
        = readH [[1, 2], [3, 4], [9]] j) ∧
      readH (composeP [[1, 2], [3, 4], [9]] 0 1 [true, false]).1
          (composeP [[1, 2], [3, 4], [9]] 0 1 [true, false]).2
        = compose (readH [[1, 2], [3, 4], [9]] 0) (readH [[1, 2], [3, 4], [9]] 1)
            [true, false] ∧
      (∀ i < (readH [[1, 2], [3, 4], [9]] 0).length,
        ([true, false] : List Bool).getD i false = false →
        (readH (composeP [[1, 2], [3, 4], [9]] 0 1 [true, false]).1
            (composeP [[1, 2], [3, 4], [9]] 0 1 [true, false]).2).getD i 0
          = (readH [[1, 2], [3, 4], [9]] 0).getD i 0)) ∧
    ((remove_labelP [[1, 2], [3, 4], [9]] 2 9).2 ≠ 2 ∧
      (∀ j < 3, readH (remove_labelP [[1, 2], [3, 4], [9]] 2 9).1 j
        = readH [[1, 2], [3, 4], [9]] j) ∧
      readH (remove_labelP [[1, 2], [3, 4], [9]] 2 9).1
          (remove_labelP [[1, 2], [3, 4], [9]] 2 9).2
        = remove_label (readH [[1, 2], [3, 4], [9]] 2) 9)) := by
  have := claim_C10_helpers_pure [[1, 2], [3, 4], [9]] 0 1 2 9 [true, false]
    (by decide) (by decide) (by decide)
  simpa using this

/-! ### Flood invariants: queue selection -/

theorem selMin_eq_none {q : List QEntry} : selMin q = none ↔ q = [] := by
  cases q with
  | nil => simp [selMin]
  | cons e es =>
    simp only [selMin]
    constructor
    · intro h
      cases hsel : selMin es <;> rw [hsel] at h
      · exact absurd h (by simp)
      · rename_i p
        cases p with
        | mk m rest => by_cases hk : keyLt m e <;> simp [hk] at h
    · intro h
      exact absurd h (by simp)

theorem selMin_mem {q : List QEntry} {e : QEntry} {rest : List QEntry}
    (h : selMin q = some (e, rest)) : e ∈ q := by
  induction q generalizing e rest with
  | nil => simp [selMin] at h
  | cons x xs ih =>
    simp only [selMin] at h
    cases hsel : selMin xs <;> rw [hsel] at h
    · simp only [Option.some.injEq, Prod.mk.injEq] at h
      simp [h.1]
    · rename_i p
      cases p with
      | mk m rest2 =>
        by_cases hk2 : keyLt m x
        · simp [hk2] at h
          exact List.mem_cons_of_mem x (h.1 ▸ ih hsel)
        · simp [hk2] at h
          simp [h.1]

theorem selMin_rest_subset {q : List QEntry} {e : QEntry} {rest : List QEntry}
    (h : selMin q = some (e, rest)) : ∀ x ∈ rest, x ∈ q := by
  induction q generalizing e rest with
  | nil => simp [selMin] at h
  | cons x xs ih =>
    simp only [selMin] at h
    cases hsel : selMin xs <;> rw [hsel] at h
    · simp only [Option.some.injEq, Prod.mk.injEq] at h
      rw [← h.2]
      intro y hy
      simp at hy
    · rename_i p
      cases p with
      | mk m rest2 =>
        by_cases hk2 : keyLt m x
        · simp [hk2] at h
          obtain ⟨he, hr⟩ := h
          rw [← hr]
          intro y hy
          rcases List.mem_cons.mp hy with h1 | h1
          · simp [h1]
          · exact List.mem_cons_of_mem x (ih (he ▸ hsel) y h1)
        · simp [hk2] at h
          rw [← h.2]
          intro y hy
          exact List.mem_cons_of_mem x hy

theorem selMin_rest_length {q : List QEntry} {e : QEntry} {rest : List QEntry}
    (h : selMin q = some (e, rest)) : rest.length + 1 = q.length := by
  induction q generalizing e rest with
  | nil => simp [selMin] at h
  | cons x xs ih =>
    simp only [selMin] at h
    cases hsel : selMin xs <;> rw [hsel] at h
    · simp only [Option.some.injEq, Prod.mk.injEq] at h
      rw [← h.2]
      have hn : xs = [] := selMin_eq_none.mp hsel
      simp [hn]
    · rename_i p
      cases p with
      | mk m rest2 =>
        by_cases hk2 : keyLt m x
        · simp [hk2] at h
          obtain ⟨he, hr⟩ := h
          rw [← hr]
          simp only [List.length_cons]
          rw [ih (he ▸ hsel)]
        · simp [hk2] at h
          rw [← h.2]
          simp

/-! ### Flood invariants: push and step preservation -/

theorem getD_set_self {l : List ℕ} {i : ℕ} (v : ℕ) (h : i < l.length) :
    (l.set i v).getD i 0 = v := by
  rw [List.getD_eq_getElem?_getD, List.getElem?_set_eq_of_lt v h]
  rfl

theorem getD_set_ne {l : List ℕ} {i j : ℕ} (v : ℕ) (h : i ≠ j) :
    (l.set i v).getD j 0 = l.getD j 0 := by
  rw [List.getD_eq_getElem?_getD, List.getElem?_set_ne h, ← List.getD_eq_getElem?_getD]

theorem pushNb_labels_length (elev : List ℕ) (mask : Option (List Bool)) (lab nb : ℕ)
    (st : WS) : (pushNb elev mask lab nb st).labels.length = st.labels.length := by
  unfold pushNb
  split <;> simp

theorem pushNb_getD_cases (elev : List ℕ) (mask : Option (List Bool)) (lab nb : ℕ)
    (st : WS) (i : ℕ) :
    (pushNb elev mask lab nb st).labels.getD i 0 = st.labels.getD i 0 ∨
      ((pushNb elev mask lab nb st).labels.getD i 0 = lab ∧ st.labels.getD i 0 = 0) := by
  unfold pushNb
  split
  · rename_i hcond
    by_cases hij : i = nb
    · subst hij
      right
      exact ⟨getD_set_self lab hcond.1, hcond.2.1⟩
    · left
      exact getD_set_ne lab (fun h => hij h.symm)
  · left
    rfl

theorem pushNb_getD_ne_zero (elev : List ℕ) (mask : Option (List Bool)) (lab nb : ℕ)
    (st : WS) {i : ℕ} (h : st.labels.getD i 0 ≠ 0) :
    (pushNb elev mask lab nb st).labels.getD i 0 = st.labels.getD i 0 := by
  rcases pushNb_getD_cases elev mask lab nb st i with hc | hc
  · exact hc
  · exact absurd hc.2 h

/-- Queue-label invariant: every queued cell carries a nonzero label. -/
def QInv (st : WS) : Prop := ∀ en ∈ st.queue, st.labels.getD en.2.2 0 ≠ 0

/-- Value invariant: every label is zero or belongs to `S`. -/
def VInv (S : List ℕ) (st : WS) : Prop :=
  ∀ i, st.labels.getD i 0 = 0 ∨ st.labels.getD i 0 ∈ S

/-- Marker-precedence invariant: originally marked cells keep their marker. -/
def MInv (markers : List ℕ) (st : WS) : Prop :=
  ∀ i, markers.getD i 0 ≠ 0 → st.labels.getD i 0 = markers.getD i 0

theorem pushNb_QInv (elev : List ℕ) (mask : Option (List Bool)) (lab nb : ℕ)
    (st : WS) (hq : QInv st) (hlab : lab ≠ 0) : QInv (pushNb elev mask lab nb st) := by
  intro en hen
  unfold pushNb at hen ⊢
  split at hen
  · rename_i hcond
    split
    · simp only [List.mem_cons] at hen
      rcases hen with he | he
      · subst he
        show (st.labels.set nb lab).getD nb 0 ≠ 0
        rw [getD_set_self lab hcond.1]
        exact hlab
      · have hne : en.2.2 ≠ nb := by
          intro hcontra
          have := hq en he
          rw [hcontra] at this
          exact this hcond.2.1
        rw [getD_set_ne lab (fun h => hne h.symm)]
        exact hq en he
    · rename_i hcond2
      exact absurd hcond hcond2
  · split
    · rename_i hcond2
      exact absurd hcond2 (by assumption)
    · exact hq en hen

theorem pushNb_VInv (elev : List ℕ) (mask : Option (List Bool)) (lab nb : ℕ)
    (st : WS) (S : List ℕ) (hv : VInv S st) (hlab : lab = 0 ∨ lab ∈ S) :
    VInv S (pushNb elev mask lab nb st) := by
  intro i
  rcases pushNb_getD_cases elev mask lab nb st i with hc | hc
  · rw [hc]; exact hv i
  · rw [hc.1]; exact hlab

theorem pushNb_MInv (elev : List ℕ) (mask : Option (List Bool)) (lab nb : ℕ)
    (st : WS) (markers : List ℕ) (hm : MInv markers st) :
    MInv markers (pushNb elev mask lab nb st) := by
  intro i hi
  have h0 : st.labels.getD i 0 = markers.getD i 0 := hm i hi
  rw [pushNb_getD_ne_zero elev mask lab nb st (by rw [h0]; exact hi)]
  exact h0

theorem step_some {elev : List ℕ} {mask : Option (List Bool)} {st st' : WS}
    (h : step elev mask st = some st') :
    ∃ en rest, selMin st.queue = some (en, rest) ∧
      st' = pushNb elev mask (st.labels.getD en.2.2 0) (en.2.2 + 1)
        (if en.2.2 = 0 then WS.mk st.labels rest st.ctr
         else pushNb elev mask (st.labels.getD en.2.2 0) (en.2.2 - 1)
           (WS.mk st.labels rest st.ctr)) := by
  unfold step at h
  cases hsel : selMin st.queue <;> rw [hsel] at h
  · exact absurd h (by simp)
  · rename_i p
    cases p with
    | mk en rest =>
      refine ⟨en, rest, rfl, ?_⟩
      simp only [Option.some.injEq] at h
      rw [← h]

theorem step_labels_length {elev : List ℕ} {mask : Option (List Bool)} {st st' : WS}
    (h : step elev mask st = some st') : st'.labels.length = st.labels.length := by
  obtain ⟨en, rest, hsel, hst⟩ := step_some h
  rw [hst, pushNb_labels_length]
  split <;> simp [pushNb_labels_length]

theorem step_QInv {elev : List ℕ} {mask : Option (List Bool)} {st st' : WS}
    (h : step elev mask st = some st') (hq : QInv st) : QInv st' := by
  obtain ⟨en, rest, hsel, hst⟩ := step_some h
  have hlab : st.labels.getD en.2.2 0 ≠ 0 := hq en (selMin_mem hsel)
  have hq1 : QInv (WS.mk st.labels rest st.ctr) := by
    intro x hx
    exact hq x (selMin_rest_subset hsel x hx)
  rw [hst]
  apply pushNb_QInv _ _ _ _ _ _ hlab
  split
  · exact hq1
  · exact pushNb_QInv _ _ _ _ _ hq1 hlab

theorem step_VInv {elev : List ℕ} {mask : Option (List Bool)} {st st' : WS}
    {S : List ℕ} (h : step elev mask st = some st') (hv : VInv S st) : VInv S st' := by
  obtain ⟨en, rest, hsel, hst⟩ := step_some h
  have hlab : st.labels.getD en.2.2 0 = 0 ∨ st.labels.getD en.2.2 0 ∈ S := hv en.2.2
  have hv1 : VInv S (WS.mk st.labels rest st.ctr) := hv
  rw [hst]
  apply pushNb_VInv _ _ _ _ _ _ _ hlab
  split
  · exact hv1
  · exact pushNb_VInv _ _ _ _ _ _ hv1 hlab

theorem step_MInv {elev : List ℕ} {mask : Option (List Bool)} {st st' : WS}
    {markers : List ℕ} (h : step elev mask st = some st') (hm : MInv markers st) :
    MInv markers st' := by
  obtain ⟨en, rest, hsel, hst⟩ := step_some h
  have hm1 : MInv markers (WS.mk st.labels rest st.ctr) := hm
  rw [hst]
  apply pushNb_MInv
  split
  · exact hm1
  · exact pushNb_MInv _ _ _ _ _ _ hm1

theorem runF_QInv (elev : List ℕ) (mask : Option (List Bool)) (f : ℕ) (st : WS)
    (hq : QInv st) : QInv (runF elev mask f st) := by
  induction f generalizing st with
  | zero => exact hq
  | succ f ih =>
    rw [runF]
    cases hstep : step elev mask st
    · exact hq
    · exact ih _ (step_QInv hstep hq)

theorem runF_VInv (elev : List ℕ) (mask : Option (List Bool)) (f : ℕ) (st : WS)
    (S : List ℕ) (hv : VInv S st) : VInv S (runF elev mask f st) := by
  induction f generalizing st with
  | zero => exact hv
  | succ f ih =>
    rw [runF]
    cases hstep : step elev mask st
    · exact hv
    · exact ih _ (step_VInv hstep hv)

theorem runF_MInv (elev : List ℕ) (mask : Option (List Bool)) (f : ℕ) (st : WS)
    (markers : List ℕ) (hm : MInv markers st) : MInv markers (runF elev mask f st) := by
  induction f generalizing st with
  | zero => exact hm
  | succ f ih =>
    rw [runF]
    cases hstep : step elev mask st
    · exact hm
    · exact ih _ (step_MInv hstep hm)

theorem runF_labels_length (elev : List ℕ) (mask : Option (List Bool)) (f : ℕ) (st : WS) :
    (runF elev mask f st).labels.length = st.labels.length := by
  induction f generalizing st with
  | zero => rfl
  | succ f ih =>
    rw [runF]
    cases hstep : step elev mask st
    · rfl
    · rw [ih]
      exact step_labels_length hstep

/-! ### Flood-level consequences of the invariants -/

theorem getD_replicate_zero (n i : ℕ) : (List.replicate n (0 : ℕ)).getD i 0 = 0 := by
  rcases Nat.lt_or_ge i n with h | h
  · rw [List.getD_eq_getElem _ _ (by simpa using h)]
    simp
  · rw [List.getD_eq_default]
    simp [h]

theorem initWS_QInv (elev markers : List ℕ) : QInv (initWS elev markers) := by
  intro en hen
  simp only [initWS, List.mem_filterMap, List.mem_range] at hen
  obtain ⟨i, hi, hcase⟩ := hen
  split at hcase
  · exact absurd hcase (by simp)
  · rename_i hne
    simp only [Option.some.injEq] at hcase
    rw [← hcase]
    exact hne

theorem initWS_VInv (elev markers : List ℕ) : VInv markers (initWS elev markers) := by
  intro i
  show markers.getD i 0 = 0 ∨ markers.getD i 0 ∈ markers
  rcases Nat.lt_or_ge i markers.length with h | h
  · right
    exact getD_mem_of_lt markers 0 h
  · left
    exact List.getD_eq_default markers 0 h

theorem initWS_MInv (elev markers : List ℕ) : MInv markers (initWS elev markers) :=
  fun _ _ => rfl

theorem all_zero_getD {markers : List ℕ} (h : markers.all (fun x => x == 0) = true)
    (i : ℕ) : markers.getD i 0 = 0 := by
  rcases Nat.lt_or_ge i markers.length with hlt | hge
  · rw [List.getD_eq_getElem _ _ hlt]
    have := List.all_eq_true.mp h _ (markers.getElem_mem hlt)
    simpa using this
  · exact List.getD_eq_default markers 0 hge

/-- Every cell of a (recovered) flood output is zero or carries a value
present in the marker image. -/
theorem floodOr0_values (elev markers : List ℕ) (mask : Option (List Bool)) (i : ℕ) :
    (floodOr0 elev markers mask).getD i 0 = 0 ∨
      (floodOr0 elev markers mask).getD i 0 ∈ markers := by
  by_cases hall : markers.all (fun x => x == 0) = true
  · rw [floodOr0, flood, if_pos hall]
    left
    exact getD_replicate_zero _ _
  · rw [floodOr0, flood, if_neg hall]
    exact runF_VInv elev mask _ _ markers (initWS_VInv elev markers) i

/-- Every originally marked cell of a (recovered) flood output keeps its own
marker value. -/
theorem floodOr0_markers (elev markers : List ℕ) (mask : Option (List Bool)) (i : ℕ)
    (hi : markers.getD i 0 ≠ 0) :
    (floodOr0 elev markers mask).getD i 0 = markers.getD i 0 := by
  by_cases hall : markers.all (fun x => x == 0) = true
  · exact absurd (all_zero_getD hall i) hi
  · rw [floodOr0, flood, if_neg hall]
    exact runF_MInv elev mask _ _ markers (initWS_MInv elev markers) i hi

theorem floodOr0_length (elev markers : List ℕ) (mask : Option (List Bool)) :
    (floodOr0 elev markers mask).length = markers.length := by
  by_cases hall : markers.all (fun x => x == 0) = true
  · rw [floodOr0, flood, if_pos hall]
    simp
  · rw [floodOr0, flood, if_neg hall]
    show (runF elev mask (markers.length + 1) (initWS elev markers)).labels.length = _
    rw [runF_labels_length]
    rfl

/-! ### Value tracking through the exchange stages -/

theorem mem_overlapL {d : ℕ} {p : BPolicy} {chs : List (List ℕ)} {ch : List ℕ} :
    ch ∈ overlapL d p chs ↔
      ∃ q < chs.length, ch = padL d p chs q ++ chs.getD q [] ++ padR d p chs q := by
  simp only [overlapL, List.mem_map, List.mem_range]
  constructor
  · rintro ⟨q, hq, rfl⟩
    exact ⟨q, hq, rfl⟩
  · rintro ⟨q, hq, rfl⟩
    exact ⟨q, hq, rfl⟩

theorem headD_zero_cases (l : List ℕ) : l.headD 0 = 0 ∨ l.headD 0 ∈ l := by
  cases l with
  | nil => left; rfl
  | cons x xs => right; simp

theorem getLastD_zero_cases (l : List ℕ) : l.getLastD 0 = 0 ∨ l.getLastD 0 ∈ l := by
  cases l with
  | nil => left; rfl
  | cons x xs =>
    right
    rw [List.getLastD_eq_getLast?, List.getLast?_eq_getLast (x :: xs) (by simp)]
    exact List.getLast_mem _

/-- Every value of a nearest-policy exchanged chunk array is zero (a
degenerate head or last of an empty chunk) or a value of some input chunk. -/
theorem overlapL_nearest_values {P : ℕ → Prop} {d : ℕ} {chs : List (List ℕ)}
    (h0 : P 0) (h : ∀ ch ∈ chs, ∀ x ∈ ch, P x) :
    ∀ ch ∈ overlapL d BPolicy.nearest chs, ∀ x ∈ ch, P x := by
  intro ch hch x hx
  obtain ⟨q, hq, rfl⟩ := mem_overlapL.mp hch
  have hval : ∀ i, i < chs.length → ∀ y ∈ chs.getD i [], P y := fun i hi y hy =>
    h _ (getD_mem_of_lt chs [] hi) y hy
  simp only [List.mem_append] at hx
  rcases hx with (hx | hx) | hx
  · unfold padL at hx
    split at hx
    · simp only [edgeFillL] at hx
      have := List.eq_of_mem_replicate hx
      rcases headD_zero_cases (chs.getD q []) with hh | hh
      · rw [this, hh]; exact h0
      · rw [this]; exact hval q hq _ hh
    · rename_i hq0
      have : x ∈ chs.getD (q - 1) [] := (List.drop_sublist _ _).subset hx
      exact hval (q - 1) (by omega) x this
  · exact hval q hq x hx
  · unfold padR at hx
    split at hx
    · simp only [edgeFillR] at hx
      have := List.eq_of_mem_replicate hx
      rcases getLastD_zero_cases (chs.getD q []) with hh | hh
      · rw [this, hh]; exact h0
      · rw [this]; exact hval q hq _ hh
    · rename_i hq1
      have hlt : q + 1 < chs.length := by omega
      have : x ∈ chs.getD (q + 1) [] := (List.take_sublist _ _).subset hx
      exact hval (q + 1) hlt x this

theorem trimL_values {P : ℕ → Prop} {d : ℕ} {chs : List (List ℕ)}
    (h : ∀ ch ∈ chs, ∀ x ∈ ch, P x) : ∀ ch ∈ trimL d chs, ∀ x ∈ ch, P x := by
  intro ch hch x hx
  simp only [trimL, List.mem_map] at hch
  obtain ⟨ch0, hch0, rfl⟩ := hch
  have : x ∈ ch0 := (List.drop_sublist _ _).subset ((List.take_sublist _ _).subset hx)
  exact h ch0 hch0 x this

theorem remove_label_values {s : ℕ} (hs : s ≠ 0) (ch : List ℕ) :
    ∀ x ∈ remove_label ch s, x ≠ s := by
  intro x hx
  simp only [remove_label, List.mem_map] at hx
  obtain ⟨y, _, rfl⟩ := hx
  split
  · exact fun hcontra => hs hcontra.symm
  · rename_i hne
    exact hne

/-! ### Pointwise access to zipped stages -/

theorem zipWith3_length {α β γ δ : Type} (f : α → β → γ → δ) (as : List α) (bs : List β)
    (cs : List γ) :
    (zipWith3 f as bs cs).length = min as.length (min bs.length cs.length) := by
  induction as generalizing bs cs with
  | nil => simp [zipWith3]
  | cons a as ih =>
    cases bs with
    | nil => simp [zipWith3]
    | cons b bs =>
      cases cs with
      | nil => simp [zipWith3]
      | cons c cs =>
        simp only [zipWith3, List.length_cons, ih]
        omega

theorem zipWith3_getD {α β γ δ : Type} (f : α → β → γ → δ) (as : List α) (bs : List β)
    (cs : List γ) (da : α) (db : β) (dc : γ) (d0 : δ) (i : ℕ)
    (hi : i < (zipWith3 f as bs cs).length) :
    (zipWith3 f as bs cs).getD i d0 = f (as.getD i da) (bs.getD i db) (cs.getD i dc) := by
  induction as generalizing bs cs i with
  | nil => simp [zipWith3] at hi
  | cons a as ih =>
    cases bs with
    | nil => simp [zipWith3] at hi
    | cons b bs =>
      cases cs with
      | nil => simp [zipWith3] at hi
      | cons c cs =>
        cases i with
        | zero => rfl
        | succ i =>
          simp only [zipWith3, List.length_cons] at hi
          exact ih bs cs i (by omega)

theorem zipWith_getD {α β γ : Type} (f : α → β → γ) (as : List α) (bs : List β)
    (da : α) (db : β) (d0 : γ) (i : ℕ) (hi : i < (List.zipWith f as bs).length) :
    (List.zipWith f as bs).getD i d0 = f (as.getD i da) (bs.getD i db) := by
  induction as generalizing bs i with
  | nil => simp at hi
  | cons a as ih =>
    cases bs with
    | nil => simp at hi
    | cons b bs =>
      cases i with
      | zero => rfl
      | succ i =>
        simp only [List.zipWith_cons_cons, List.length_cons] at hi
        exact ih bs i (by omega)

theorem mem_getD_of_mem {α : Type} {L : List α} {v : α} (d0 : α) (hv : v ∈ L) :
    ∃ i, i < L.length ∧ L.getD i d0 = v := by
  obtain ⟨i, hi, he⟩ := List.mem_iff_getElem.mp hv
  exact ⟨i, hi, by rw [List.getD_eq_getElem _ _ hi]; exact he⟩

theorem getD_map_list {β : Type} (l : List (List ℕ)) (f : List ℕ → β) (df : β) {q : ℕ}
    (hq : q < l.length) : (l.map f).getD q df = f (l.getD q []) := by
  rw [List.getD_eq_getElem _ _ (by simpa using hq), List.getElem_map,
    List.getD_eq_getElem _ _ hq]

theorem mem_range_map {α : Type} {n : ℕ} {f : ℕ → α} {v : α} :
    v ∈ (List.range n).map f ↔ ∃ i < n, v = f i := by
  simp only [List.mem_map, List.mem_range]
  constructor
  · rintro ⟨i, hi, rfl⟩; exact ⟨i, hi, rfl⟩
  · rintro ⟨i, hi, rfl⟩; exact ⟨i, hi, rfl⟩

/-! ### Claim C2: the sentinel never leaks -/

theorem boundary_label_pos (markers : List ℕ) : 0 < boundary_label markers := by
  unfold boundary_label
  omega

/-- Values of the second-pass marker chunks are never the sentinel: the
sentinel is removed before the trim and the re-exchange only rearranges
and replicates chunk values (or fills a degenerate zero). -/
theorem ws_markers_sp_ne_sentinel (elev markers : List ℕ) (clen d : ℕ) :
    ∀ ch ∈ V2.ws_markers_sp elev markers clen d, ∀ x ∈ ch,
      x ≠ boundary_label markers := by
  have hs0 : boundary_label markers ≠ 0 := by
    have := boundary_label_pos markers
    omega
  apply overlapL_nearest_values
  · intro hcontra
    exact hs0 hcontra.symm
  · apply trimL_values
    intro ch hch x hx
    simp only [List.mem_map] at hch
    obtain ⟨ch0, _, rfl⟩ := hch
    exact remove_label_values hs0 ch0 x hx

/-- Claim C2 (sentinel never leaks): for the SentinelBasinSharing strategy,
for every elevation array, marker map, chunk length and halo depth, no cell
of the final composed and trimmed output equals the sentinel label
`boundary_label markers = max(markers) + 1`: wherever the first pass
produced the sentinel the composition overwrites the cell with the
second-pass value, and the second pass can only produce values of its
sentinel-free marker image (or zero). -/
theorem claim_C2_sentinel_never_leaks (elev markers : List ℕ) (clen d : ℕ) :
    ∀ v ∈ V2.ws_final elev markers clen d, v ≠ boundary_label markers := by
  intro v hv
  have hs0 : boundary_label markers ≠ 0 := by
    have := boundary_label_pos markers
    omega
  have hcomposed : ∀ ch ∈ zipWith3 compose (V2.ws_fp elev markers clen d)
      (V2.ws_sp elev markers clen d) (V2.ws_mask elev markers clen d),
      ∀ x ∈ ch, x ≠ boundary_label markers := by
    intro ch hch x hx
    obtain ⟨q, hq, hcq⟩ := mem_getD_of_mem [] hch
    rw [zipWith3_getD compose _ _ _ [] [] [] [] q hq] at hcq
    rw [zipWith3_length] at hq
    subst hcq
    simp only [compose] at hx
    obtain ⟨i, hi, hxe⟩ := mem_range_map.mp hx
    subst hxe
    split
    · -- mask true: the cell is the second-pass value
      have hq2 : q < (V2.ws_sp elev markers clen d).length := by omega
      have hsp : (V2.ws_sp elev markers clen d).getD q [] =
          floodOr0 ((V2.hmax_op elev clen d).getD q [])
            ((V2.ws_markers_sp elev markers clen d).getD q [])
            (some ((V2.ws_mask elev markers clen d).getD q [])) := by
        rw [V2.ws_sp, zipWith3_getD _ _ _ _ [] [] [] [] q (by rw [← V2.ws_sp]; exact hq2)]
      rw [hsp]
      rcases floodOr0_values ((V2.hmax_op elev clen d).getD q [])
          ((V2.ws_markers_sp elev markers clen d).getD q [])
          (some ((V2.ws_mask elev markers clen d).getD q [])) i with hc | hc
      · rw [hc]
        exact fun hcontra => hs0 hcontra.symm
      · have hq3 : q < (V2.ws_markers_sp elev markers clen d).length := by
          have := hq2
          rw [V2.ws_sp, zipWith3_length] at this
          omega
        exact ws_markers_sp_ne_sentinel elev markers clen d _
          (getD_mem_of_lt _ [] hq3) _ hc
    · -- mask false: the cell is the first-pass value, which is not the sentinel
      rename_i hmask
      have hmq : q < (V2.ws_fp elev markers clen d).length := by omega
      have hmaskq : (V2.ws_mask elev markers clen d).getD q [] =
          ((V2.ws_fp elev markers clen d).getD q []).map
            (fun x => decide (x = boundary_label markers)) := by
        rw [V2.ws_mask, getD_map_list _ _ _ hmq]
      by_cases hi2 : i < ((V2.ws_fp elev markers clen d).getD q []).length
      · have : ((V2.ws_mask elev markers clen d).getD q []).getD i false =
            decide (((V2.ws_fp elev markers clen d).getD q []).getD i 0
              = boundary_label markers) := by
          rw [hmaskq, List.getD_eq_getElem _ _ (by simpa using hi2), List.getElem_map,
            List.getD_eq_getElem _ _ hi2]
        rw [this] at hmask
        simpa using hmask
      · rw [List.getD_eq_default _ _ (by omega)]
        exact fun hcontra => hs0 hcontra.symm
  have htrim := trimL_values (d := d) hcomposed
  rw [V2.ws_final] at hv
  obtain ⟨ch, hch, hvch⟩ := List.mem_flatten.mp hv
  exact htrim ch hch v hvch

/-! ### Chunk geometry bookkeeping -/

theorem chunkListF_fuel {α : Type} (c : ℕ) :
    ∀ (f1 f2 : ℕ) (l : List α), l.length < f1 → l.length < f2 →
      chunkListF f1 c l = chunkListF f2 c l := by
  intro f1
  induction f1 with
  | zero => intro f2 l h1 h2; omega
  | succ f1 ih =>
    intro f2 l h1 h2
    cases f2 with
    | zero => omega
    | succ f2 =>
      cases l with
      | nil => cases c <;> rfl
      | cons x xs =>
        cases c with
        | zero => rfl
        | succ c =>
          show ((x :: xs).take (c + 1)) :: chunkListF f1 (c + 1) (xs.drop c) =
            ((x :: xs).take (c + 1)) :: chunkListF f2 (c + 1) (xs.drop c)
          rw [ih f2 (xs.drop c) (by simp only [List.length_drop]; simp at h1; omega)
            (by simp only [List.length_drop]; simp at h2; omega)]

theorem chunkList_cons {α : Type} (c : ℕ) (l : List α) (hc : 0 < c) (hl : l ≠ []) :
    chunkList c l = l.take c :: chunkList c (l.drop c) := by
  cases c with
  | zero => omega
  | succ c =>
    cases l with
    | nil => exact absurd rfl hl
    | cons x xs =>
      show chunkListF (xs.length + 1 + 1) (c + 1) (x :: xs) = _
      show ((x :: xs).take (c + 1)) :: chunkListF (xs.length + 1) (c + 1) (xs.drop c) = _
      rw [chunkListF_fuel (c + 1) (xs.length + 1) ((xs.drop c).length + 1) (xs.drop c)
        (by simp only [List.length_drop]; omega) (by omega)]
      rfl

theorem chunkList_nil {α : Type} (c : ℕ) : chunkList c ([] : List α) = [] := by
  cases c <;> rfl

theorem chunkList_length_dvd {α : Type} (c : ℕ) (l : List α) (hc : 0 < c)
    (hdvd : c ∣ l.length) : (chunkList c l).length = l.length / c := by
  obtain ⟨m, hm⟩ := hdvd
  induction m generalizing l with
  | zero =>
    have : l = [] := List.length_eq_zero.mp (by omega)
    subst this
    rw [chunkList_nil]
    simp
  | succ m ih =>
    have hl : l ≠ [] := by
      intro hcontra
      subst hcontra
      simp at hm
      omega
    rw [chunkList_cons c l hc hl]
    have hdl : (l.drop c).length = c * m := by
      simp only [List.length_drop]
      rw [hm, Nat.mul_succ]
      omega
    rw [List.length_cons, ih (l.drop c) hdl]
    rw [hm, hdl]
    rw [Nat.mul_comm c (m + 1), Nat.mul_comm c m, Nat.mul_div_cancel _ hc,
      Nat.mul_div_cancel _ hc]

theorem chunkList_chunk_length {α : Type} (c : ℕ) (l : List α) (hc : 0 < c)
    (hdvd : c ∣ l.length) : ∀ ch ∈ chunkList c l, ch.length = c := by
  obtain ⟨m, hm⟩ := hdvd
  induction m generalizing l with
  | zero =>
    have : l = [] := List.length_eq_zero.mp (by omega)
    subst this
    rw [chunkList_nil]
    intro ch hch
    simp at hch
  | succ m ih =>
    have hl : l ≠ [] := by
      intro hcontra
      subst hcontra
      simp at hm
      omega
    rw [chunkList_cons c l hc hl]
    intro ch hch
    have hcle : c ≤ l.length := by
      rw [hm, Nat.mul_succ]
      omega
    rcases List.mem_cons.mp hch with h | h
    · subst h
      simp only [List.length_take]
      omega
    · have hdl : (l.drop c).length = c * m := by
        simp only [List.length_drop]
        rw [hm, Nat.mul_succ]
        omega
      exact ih (l.drop c) hdl ch h

theorem chunkList_getD {α : Type} (c : ℕ) (hc : 0 < c) :
    ∀ (q : ℕ) (l : List α), (chunkList c l).getD q [] = (l.drop (q * c)).take c := by
  intro q
  induction q with
  | zero =>
    intro l
    by_cases hl : l = []
    · subst hl
      rw [chunkList_nil]
      simp
    · rw [chunkList_cons c l hc hl]
      simp
  | succ q ih =>
    intro l
    by_cases hl : l = []
    · subst hl
      rw [chunkList_nil]
      simp
    · rw [chunkList_cons c l hc hl]
      show (chunkList c (l.drop c)).getD q [] = _
      rw [ih (l.drop c), List.drop_drop]
      congr 2
      ring

theorem chunkList_flatten {α : Type} (c : ℕ) (l : List α) (hc : 0 < c) :
    (chunkList c l).flatten = l := by
  have h : ∀ n (l : List α), l.length ≤ n → (chunkList c l).flatten = l := by
    intro n
    induction n with
    | zero =>
      intro l hl
      have : l = [] := List.length_eq_zero.mp (by omega)
      subst this
      rw [chunkList_nil]
      rfl
    | succ n ih =>
      intro l hl
      by_cases hnil : l = []
      · subst hnil
        rw [chunkList_nil]
        rfl
      · rw [chunkList_cons c l hc hnil]
        rw [List.flatten_cons, ih (l.drop c) (by
          simp only [List.length_drop]
          have : 0 < l.length := List.length_pos.mpr hnil
          omega)]
        exact List.take_append_drop c l
  exact h l.length l (le_refl _)

/-- Access a cell of a chunk of an evenly chunked list. -/
theorem chunkList_cell {α : Type} (dflt : α) (c : ℕ) (l : List α) (hc : 0 < c)
    {q r : ℕ} (hr : r < c) (hi : q * c + r < l.length) :
    ((chunkList c l).getD q []).getD r dflt = l.getD (q * c + r) dflt := by
  rw [chunkList_getD c hc q l]
  have h1 : r < ((l.drop (q * c)).take c).length := by
    simp only [List.length_take, List.length_drop]
    omega
  rw [List.getD_eq_getElem _ _ h1]
  have h2 : r < (l.drop (q * c)).length := by
    simp only [List.length_drop]
    omega
  rw [List.getElem_take, List.getElem_drop, ← List.getD_eq_getElem _ _ (by omega)]

/-- Access a cell of the flattening of a uniform chunk list. -/
theorem flatten_cell {α : Type} (dflt : α) (c : ℕ) (chs : List (List α))
    (hlen : ∀ ch ∈ chs, ch.length = c) :
    ∀ (q r : ℕ), q < chs.length → r < c →
      chs.flatten.getD (q * c + r) dflt = (chs.getD q []).getD r dflt := by
  induction chs with
  | nil => intro q r hq hr; simp at hq
  | cons ch rest ih =>
    intro q r hq hr
    have hch : ch.length = c := hlen ch (by simp)
    cases q with
    | zero =>
      rw [List.flatten_cons]
      simp only [Nat.zero_mul, Nat.zero_add]
      rw [List.getD_append _ _ _ _ (by omega)]
      rfl
    | succ q =>
      rw [List.flatten_cons]
      have harith : (q + 1) * c + r = ch.length + (q * c + r) := by
        rw [hch]; ring
      rw [harith, List.getD_append_right _ _ _ _ (by omega)]
      have : ch.length + (q * c + r) - ch.length = q * c + r := by omega
      rw [this]
      have hrest : ∀ ch2 ∈ rest, ch2.length = c := fun ch2 h2 =>
        hlen ch2 (List.mem_cons_of_mem ch h2)
      rw [ih hrest q r (by simpa using hq) hr]
      rfl

/-- Access a core cell of an exchanged chunk. -/
theorem overlapL_core_getD (d : ℕ) (p : BPolicy) (chs : List (List ℕ))
    (hd : ∀ ch ∈ chs, d ≤ ch.length) {q r : ℕ} (hq : q < chs.length)
    (hr : r < (chs.getD q []).length) :
    ((overlapL d p chs).getD q []).getD (d + r) 0 = (chs.getD q []).getD r 0 := by
  rw [overlapL_getD d p chs hq]
  have hpl : (padL d p chs q).length = d := padL_length d p chs q hd hq
  rw [List.getD_append _ _ _ _ (by
    simp only [List.length_append, hpl]
    omega)]
  rw [List.getD_append_right _ _ _ _ (by omega)]
  congr 1
  omega

/-! ### Uniform chunk shapes through the pipeline stages -/

/-- The chunk list `X` has `k` chunks, each of length `L`. -/
def chunksLen {α : Type} (X : List (List α)) (k L : ℕ) : Prop :=
  X.length = k ∧ ∀ ch ∈ X, ch.length = L

theorem chunksLen_chunkList {α : Type} (c : ℕ) (l : List α) (hc : 0 < c)
    (hdvd : c ∣ l.length) : chunksLen (chunkList c l) (l.length / c) c :=
  ⟨chunkList_length_dvd c l hc hdvd, chunkList_chunk_length c l hc hdvd⟩

theorem chunksLen_getD_length {α : Type} {X : List (List α)} {k L : ℕ}
    (h : chunksLen X k L) {q : ℕ} (hq : q < k) : (X.getD q []).length = L :=
  h.2 _ (getD_mem_of_lt X [] (by rw [h.1]; exact hq))

theorem chunksLen_overlapL (d : ℕ) (p : BPolicy) {chs : List (List ℕ)} {k L : ℕ}
    (h : chunksLen chs k L) (hd : d ≤ L) :
    chunksLen (overlapL d p chs) k (L + 2 * d) := by
  have hdch : ∀ ch ∈ chs, d ≤ ch.length := fun ch hch => by
    rw [h.2 ch hch]; exact hd
  constructor
  · rw [overlapL_length, h.1]
  · intro ch hch
    obtain ⟨q, hq, rfl⟩ := mem_overlapL.mp hch
    simp only [List.length_append]
    rw [padL_length d p chs q hdch hq, padR_length d p chs q hdch hq,
      h.2 _ (getD_mem_of_lt chs [] hq)]
    ring

theorem chunksLen_trimL {α : Type} {chs : List (List α)} {k L : ℕ} (d : ℕ)
    (h : chunksLen chs k L) : chunksLen (trimL d chs) k (L - 2 * d) := by
  constructor
  · rw [trimL_length, h.1]
  · intro ch hch
    simp only [trimL, List.mem_map] at hch
    obtain ⟨ch0, hch0, rfl⟩ := hch
    simp only [trimChunk, List.length_take, List.length_drop]
    rw [h.2 ch0 hch0]
    omega

theorem chunksLen_zipWith_snd {α : Type} (f : List ℕ → List ℕ → List α)
    (hf : ∀ a b, (f a b).length = b.length) {as bs : List (List ℕ)} {k L : ℕ}
    (ha : as.length = k) (hb : chunksLen bs k L) :
    chunksLen (List.zipWith f as bs) k L := by
  constructor
  · rw [List.length_zipWith, ha, hb.1]
    exact Nat.min_self k
  · intro ch hch
    obtain ⟨q, hq, hche⟩ := mem_getD_of_mem [] hch
    rw [zipWith_getD f as bs [] [] [] q hq] at hche
    rw [← hche, hf]
    rw [List.length_zipWith, ha, hb.1, Nat.min_self] at hq
    exact chunksLen_getD_length hb hq

theorem chunksLen_map {α : Type} (f : List ℕ → List α) (hf : ∀ a, (f a).length = a.length)
    {as : List (List ℕ)} {k L : ℕ} (ha : chunksLen as k L) :
    chunksLen (as.map f) k L := by
  constructor
  · rw [List.length_map, ha.1]
  · intro ch hch
    simp only [List.mem_map] at hch
    obtain ⟨a, haa, rfl⟩ := hch
    rw [hf, ha.2 a haa]

theorem chunksLen_zipWith3_fst {α β : Type} (f : List ℕ → List α → List β → List ℕ)
    (hf : ∀ a b c, (f a b c).length = a.length) {as : List (List ℕ)} {bs : List (List α)}
    {cs : List (List β)} {k L : ℕ}
    (ha : chunksLen as k L) (hb : bs.length = k) (hcl : cs.length = k) :
    chunksLen (zipWith3 f as bs cs) k L := by
  constructor
  · rw [zipWith3_length, ha.1, hb, hcl]
    simp
  · intro ch hch
    obtain ⟨q, hq, hche⟩ := mem_getD_of_mem [] hch
    rw [zipWith3_getD f as bs cs [] [] [] [] q hq] at hche
    rw [← hche, hf]
    rw [zipWith3_length, ha.1, hb, hcl] at hq
    simp only [Nat.min_self] at hq
    exact chunksLen_getD_length ha hq

theorem chunksLen_zipWith3_snd {α β : Type} (f : List α → List ℕ → List β → List ℕ)
    (hf : ∀ a b c, (f a b c).length = b.length) {as : List (List α)} {bs : List (List ℕ)}
    {cs : List (List β)} {k L : ℕ}
    (ha : as.length = k) (hb : chunksLen bs k L) (hcl : cs.length = k) :
    chunksLen (zipWith3 f as bs cs) k L := by
  constructor
  · rw [zipWith3_length, ha, hb.1, hcl]
    simp
  · intro ch hch
    obtain ⟨q, hq, hche⟩ := mem_getD_of_mem [] hch
    rw [zipWith3_getD f as bs cs [] [] [] [] q hq] at hche
    rw [← hche, hf]
    rw [zipWith3_length, ha, hb.1, hcl] at hq
    simp only [Nat.min_self] at hq
    exact chunksLen_getD_length hb hq

theorem floodOr0_length_snd : ∀ (a b : List ℕ),
    (floodOr0 a b none).length = b.length := fun a b => floodOr0_length a b none

/-! ### Pointwise characterizations of the helper functions -/

theorem trimChunk_getD (d : ℕ) (ch : List ℕ) {r : ℕ} (hr : r < ch.length - 2 * d) :
    (trimChunk d ch).getD r 0 = ch.getD (d + r) 0 := by
  unfold trimChunk
  have h1 : r < ((ch.drop d).take (ch.length - 2 * d)).length := by
    simp only [List.length_take, List.length_drop]
    omega
  rw [List.getD_eq_getElem _ _ h1, List.getElem_take, List.getElem_drop,
    ← List.getD_eq_getElem _ _ (by omega)]

theorem compose_length (fp sp : List ℕ) (mk : List Bool) :
    (compose fp sp mk).length = fp.length := by
  simp [compose]

theorem compose_getD (fp sp : List ℕ) (mk : List Bool) {i : ℕ} (hi : i < fp.length) :
    (compose fp sp mk).getD i 0 =
      if mk.getD i false then sp.getD i 0 else fp.getD i 0 := by
  rw [compose, List.getD_eq_getElem _ _ (by simpa using hi)]
  simp

theorem grab_overlap_getD (chunk : List ℕ) (depth : ℕ) {i : ℕ} (hi : i < chunk.length) :
    (grab_overlap chunk depth).getD i 0 =
      if inRing chunk.length depth i then chunk.getD i 0 else 0 := by
  rw [grab_overlap, List.getD_eq_getElem _ _ (by simpa using hi)]
  simp

theorem mask_overlap_getD (chunk : List ℕ) (depth lab : ℕ) {i : ℕ} (hi : i < chunk.length) :
    (mask_overlap chunk depth lab).getD i 0 =
      if inRing chunk.length depth i then lab else 0 := by
  rw [mask_overlap, List.getD_eq_getElem _ _ (by simpa using hi)]
  simp

theorem grab_overlap_length (chunk : List ℕ) (depth : ℕ) :
    (grab_overlap chunk depth).length = chunk.length := by
  simp [grab_overlap]

theorem le_foldr_max (l : List ℕ) : ∀ x ∈ l, x ≤ l.foldr max 0 := by
  induction l with
  | nil => intro x hx; simp at hx
  | cons a as ih =>
    intro x hx
    rcases List.mem_cons.mp hx with h | h
    · subst h
      exact le_max_left _ _
    · exact le_trans (ih x h) (le_max_right _ _)

theorem marker_lt_sentinel (markers : List ℕ) {i : ℕ} (hi : i < markers.length) :
    markers.getD i 0 < boundary_label markers := by
  unfold boundary_label
  have := le_foldr_max markers _ (getD_mem_of_lt markers 0 hi)
  omega

namespace V1

theorem build_full_markers_length (labels ws : List ℕ) (depth : ℕ) :
    (build_full_markers labels ws depth).length = ws.length := by
  simp [build_full_markers]

theorem build_full_markers_getD (labels ws : List ℕ) (depth : ℕ) {i : ℕ}
    (hi : i < ws.length) :
    (build_full_markers labels ws depth).getD i 0 =
      if 0 < labels.getD i 0 then labels.getD i 0 else (grab_overlap ws depth).getD i 0 := by
  rw [build_full_markers, List.getD_eq_getElem _ _ (by simpa using hi)]
  simp

end V1

namespace V2

theorem build_full_markers_length_v2 (labels : List ℕ) (depth lab : ℕ) :
    (build_full_markers labels depth lab).length = labels.length := by
  simp [build_full_markers]

theorem build_full_markers_getD_v2 (labels : List ℕ) (depth lab : ℕ) {i : ℕ}
    (hi : i < labels.length) :
    (build_full_markers labels depth lab).getD i 0 =
      if 0 < labels.getD i 0 then labels.getD i 0
      else (mask_overlap labels depth lab).getD i 0 := by
  rw [build_full_markers, List.getD_eq_getElem _ _ (by simpa using hi)]
  simp

end V2

/-! ### Stage shapes of the DirectSharing pipeline -/

namespace V1

theorem mOp_chunksLen (markers : List ℕ) (clen d : ℕ) (hc : 0 < clen)
    (hdvd : clen ∣ markers.length) (hd : d ≤ clen) :
    chunksLen (ws_markers_op markers clen d) (markers.length / clen) (clen + 2 * d) :=
  chunksLen_overlapL d _ (chunksLen_chunkList clen markers hc hdvd) hd

theorem hmaxOp_chunksLen (elev markers : List ℕ) (clen d : ℕ) (hc : 0 < clen)
    (hdvd : clen ∣ markers.length) (hlen : elev.length = markers.length) (hd : d ≤ clen) :
    chunksLen (hmax_op elev clen d) (markers.length / clen) (clen + 2 * d) := by
  have h := chunksLen_overlapL d BPolicy.nearest
    (chunksLen_chunkList clen elev hc (by rw [hlen]; exact hdvd)) hd
  rwa [hlen] at h

theorem wsFp_chunksLen (elev markers : List ℕ) (clen d : ℕ) (hc : 0 < clen)
    (hdvd : clen ∣ markers.length) (hlen : elev.length = markers.length) (hd : d ≤ clen) :
    chunksLen (ws_fp elev markers clen d) (markers.length / clen) (clen + 2 * d) :=
  chunksLen_zipWith_snd _ floodOr0_length_snd
    (hmaxOp_chunksLen elev markers clen d hc hdvd hlen hd).1
    (mOp_chunksLen markers clen d hc hdvd hd)

theorem wsNeighbors_chunksLen (elev markers : List ℕ) (clen d : ℕ) (hc : 0 < clen)
    (hdvd : clen ∣ markers.length) (hlen : elev.length = markers.length) (hd : d ≤ clen) :
    chunksLen (ws_neighbors elev markers clen d) (markers.length / clen) (clen + 2 * d) := by
  have htrim := chunksLen_trimL d (wsFp_chunksLen elev markers clen d hc hdvd hlen hd)
  have : clen + 2 * d - 2 * d = clen := by omega
  rw [this] at htrim
  exact chunksLen_overlapL d _ htrim hd

theorem fullLabels_chunksLen (elev markers : List ℕ) (clen d : ℕ) (hc : 0 < clen)
    (hdvd : clen ∣ markers.length) (hlen : elev.length = markers.length) (hd : d ≤ clen) :
    chunksLen (full_labels_op elev markers clen d) (markers.length / clen) (clen + 2 * d) :=
  chunksLen_zipWith_snd _ (fun a b => build_full_markers_length a b d)
    (mOp_chunksLen markers clen d hc hdvd hd).1
    (wsNeighbors_chunksLen elev markers clen d hc hdvd hlen hd)

theorem wsSp_chunksLen (elev markers : List ℕ) (clen d : ℕ) (hc : 0 < clen)
    (hdvd : clen ∣ markers.length) (hlen : elev.length = markers.length) (hd : d ≤ clen) :
    chunksLen (ws_sp_op elev markers clen d) (markers.length / clen) (clen + 2 * d) :=
  chunksLen_zipWith_snd _ floodOr0_length_snd
    (hmaxOp_chunksLen elev markers clen d hc hdvd hlen hd).1
    (fullLabels_chunksLen elev markers clen d hc hdvd hlen hd)

theorem wsFp_getD (elev markers : List ℕ) (clen d : ℕ) (hc : 0 < clen)
    (hdvd : clen ∣ markers.length) (hlen : elev.length = markers.length) (hd : d ≤ clen)
    {q : ℕ} (hq : q < markers.length / clen) :
    (ws_fp elev markers clen d).getD q [] =
      floodOr0 ((hmax_op elev clen d).getD q []) ((ws_markers_op markers clen d).getD q [])
        none := by
  apply zipWith_getD
  show q < (ws_fp elev markers clen d).length
  rw [(wsFp_chunksLen elev markers clen d hc hdvd hlen hd).1]
  exact hq

theorem fullLabels_getD (elev markers : List ℕ) (clen d : ℕ) (hc : 0 < clen)
    (hdvd : clen ∣ markers.length) (hlen : elev.length = markers.length) (hd : d ≤ clen)
    {q : ℕ} (hq : q < markers.length / clen) :
    (full_labels_op elev markers clen d).getD q [] =
      build_full_markers ((ws_markers_op markers clen d).getD q [])
        ((ws_neighbors elev markers clen d).getD q []) d := by
  apply zipWith_getD
  show q < (full_labels_op elev markers clen d).length
  rw [(fullLabels_chunksLen elev markers clen d hc hdvd hlen hd).1]
  exact hq

theorem wsSp_getD (elev markers : List ℕ) (clen d : ℕ) (hc : 0 < clen)
    (hdvd : clen ∣ markers.length) (hlen : elev.length = markers.length) (hd : d ≤ clen)
    {q : ℕ} (hq : q < markers.length / clen) :
    (ws_sp_op elev markers clen d).getD q [] =
      floodOr0 ((hmax_op elev clen d).getD q []) ((full_labels_op elev markers clen d).getD q [])
        none := by
  apply zipWith_getD
  show q < (ws_sp_op elev markers clen d).length
  rw [(wsSp_chunksLen elev markers clen d hc hdvd hlen hd).1]
  exact hq

/-- The final reassembled cell `i` is cell `d + i % clen` of the trimmed
second-pass chunk `i / clen`. -/
theorem final_cell (elev markers : List ℕ) (clen d : ℕ) (hc : 0 < clen)
    (hdvd : clen ∣ markers.length) (hlen : elev.length = markers.length) (hd : d ≤ clen)
    {i : ℕ} (hi : i < markers.length) :
    (ws_final elev markers clen d).getD i 0 =
      ((ws_sp_op elev markers clen d).getD (i / clen) []).getD (d + i % clen) 0 := by
  have hsp := wsSp_chunksLen elev markers clen d hc hdvd hlen hd
  have htrim := chunksLen_trimL d hsp
  have harith : clen + 2 * d - 2 * d = clen := by omega
  rw [harith] at htrim
  have hn : markers.length = markers.length / clen * clen := by
    rw [Nat.div_mul_cancel hdvd]
  have hq : i / clen < markers.length / clen := by
    rw [Nat.div_lt_iff_lt_mul hc]
    omega
  have hr : i % clen < clen := Nat.mod_lt i hc
  have hmain := flatten_cell (0 : ℕ) clen (trimL d (ws_sp_op elev markers clen d)) htrim.2
    (i / clen) (i % clen) (by rw [htrim.1]; exact hq) hr
  have hidx : i / clen * clen + i % clen = i := by
    rw [Nat.mul_comm]
    exact Nat.div_add_mod i clen
  rw [hidx] at hmain
  rw [ws_final, hmain]
  have hq2 : i / clen < (ws_sp_op elev markers clen d).length := by
    rw [hsp.1]; exact hq
  rw [show (trimL d (ws_sp_op elev markers clen d)).getD (i / clen) [] =
      trimChunk d ((ws_sp_op elev markers clen d).getD (i / clen) []) from
    getD_map_list _ _ _ hq2]
  apply trimChunk_getD
  rw [chunksLen_getD_length hsp hq]
  omega

end V1

/-! ### Claim C3: seed precedence -/

theorem cell_lt {q r clen k n : ℕ} (hq : q < k) (hr : r < clen) (hn : n = k * clen) :
    q * clen + r < n := by
  have h2 : (q + 1) * clen ≤ k * clen := Nat.mul_le_mul_right clen hq
  rw [Nat.succ_mul] at h2
  omega

theorem n_eq_k_mul {clen n : ℕ} ( _hc : 0 < clen) (hdvd : clen ∣ n) :
    n = n / clen * clen := (Nat.div_mul_cancel hdvd).symm

namespace V1

theorem mOp_core (markers : List ℕ) (clen d : ℕ) (hc : 0 < clen)
    (hdvd : clen ∣ markers.length) (hd : d ≤ clen) {q r : ℕ}
    (hq : q < markers.length / clen) (hr : r < clen) :
    ((ws_markers_op markers clen d).getD q []).getD (d + r) 0 =
      markers.getD (q * clen + r) 0 := by
  have hch := chunksLen_chunkList clen markers hc hdvd
  have hq2 : q < (chunkList clen markers).length := by rw [hch.1]; exact hq
  rw [ws_markers_op, overlapL_core_getD d _ _ (fun ch hm => by rw [hch.2 ch hm]; omega) hq2
    (by rw [chunksLen_getD_length hch hq]; exact hr)]
  exact chunkList_cell 0 clen markers hc hr
    (cell_lt hq hr (n_eq_k_mul hc hdvd))

theorem seed_cell (elev markers : List ℕ) (clen d : ℕ) (hc : 0 < clen)
    (hdvd : clen ∣ markers.length) (hlen : elev.length = markers.length) (hd : d ≤ clen)
    {i : ℕ} (hi : i < markers.length) (hm : markers.getD i 0 ≠ 0) :
    (ws_final elev markers clen d).getD i 0 = markers.getD i 0 := by
  have hq : i / clen < markers.length / clen := by
    rw [Nat.div_lt_iff_lt_mul hc]
    have := n_eq_k_mul hc hdvd
    omega
  have hr : i % clen < clen := Nat.mod_lt i hc
  have hidx : i / clen * clen + i % clen = i := by
    rw [Nat.mul_comm]
    exact Nat.div_add_mod i clen
  have hnb := wsNeighbors_chunksLen elev markers clen d hc hdvd hlen hd
  have hfull : ((full_labels_op elev markers clen d).getD (i / clen) []).getD
      (d + i % clen) 0 = markers.getD i 0 := by
    rw [fullLabels_getD elev markers clen d hc hdvd hlen hd hq]
    rw [build_full_markers_getD _ _ d (by
      rw [chunksLen_getD_length hnb hq]
      omega)]
    rw [mOp_core markers clen d hc hdvd hd hq hr, hidx]
    rw [if_pos (by omega)]
  rw [final_cell elev markers clen d hc hdvd hlen hd hi,
    wsSp_getD elev markers clen d hc hdvd hlen hd hq,
    floodOr0_markers _ _ _ _ (by rw [hfull]; exact hm), hfull]

end V1

/-! ### Stage shapes of the SentinelBasinSharing pipeline -/

namespace V2

theorem remove_label_length (ch : List ℕ) (lab : ℕ) :
    (remove_label ch lab).length = ch.length := by
  simp [remove_label]

theorem ovConst_chunksLen (markers : List ℕ) (clen d : ℕ) (hc : 0 < clen)
    (hdvd : clen ∣ markers.length) (hd : d ≤ clen) :
    chunksLen (overlapL d (BPolicy.const (boundary_label markers)) (chunkList clen markers))
      (markers.length / clen) (clen + 2 * d) :=
  chunksLen_overlapL d _ (chunksLen_chunkList clen markers hc hdvd) hd

theorem mOp_chunksLen_v2 (markers : List ℕ) (clen d : ℕ) (hc : 0 < clen)
    (hdvd : clen ∣ markers.length) (hd : d ≤ clen) :
    chunksLen (ws_markers_op markers clen d) (markers.length / clen) (clen + 2 * d) :=
  chunksLen_map _ (fun a => build_full_markers_length_v2 a d (boundary_label markers))
    (ovConst_chunksLen markers clen d hc hdvd hd)

theorem mOp_getD (markers : List ℕ) (clen d : ℕ) (hc : 0 < clen)
    (hdvd : clen ∣ markers.length) (hd : d ≤ clen) {q : ℕ}
    (hq : q < markers.length / clen) :
    (ws_markers_op markers clen d).getD q [] =
      build_full_markers
        ((overlapL d (BPolicy.const (boundary_label markers)) (chunkList clen markers)).getD q [])
        d (boundary_label markers) := by
  apply getD_map_list
  rw [(ovConst_chunksLen markers clen d hc hdvd hd).1]
  exact hq

theorem hmaxOp_chunksLen_v2 (elev markers : List ℕ) (clen d : ℕ) (hc : 0 < clen)
    (hdvd : clen ∣ markers.length) (hlen : elev.length = markers.length) (hd : d ≤ clen) :
    chunksLen (hmax_op elev clen d) (markers.length / clen) (clen + 2 * d) := by
  have h := chunksLen_overlapL d BPolicy.nearest
    (chunksLen_chunkList clen elev hc (by rw [hlen]; exact hdvd)) hd
  rwa [hlen] at h

theorem wsFp_chunksLen_v2 (elev markers : List ℕ) (clen d : ℕ) (hc : 0 < clen)
    (hdvd : clen ∣ markers.length) (hlen : elev.length = markers.length) (hd : d ≤ clen) :
    chunksLen (ws_fp elev markers clen d) (markers.length / clen) (clen + 2 * d) :=
  chunksLen_zipWith_snd _ floodOr0_length_snd
    (hmaxOp_chunksLen_v2 elev markers clen d hc hdvd hlen hd).1
    (mOp_chunksLen_v2 markers clen d hc hdvd hd)

theorem wsFp_getD_v2 (elev markers : List ℕ) (clen d : ℕ) (hc : 0 < clen)
    (hdvd : clen ∣ markers.length) (hlen : elev.length = markers.length) (hd : d ≤ clen)
    {q : ℕ} (hq : q < markers.length / clen) :
    (ws_fp elev markers clen d).getD q [] =
      floodOr0 ((hmax_op elev clen d).getD q []) ((ws_markers_op markers clen d).getD q [])
        none := by
  apply zipWith_getD
  show q < (ws_fp elev markers clen d).length
  rw [(wsFp_chunksLen_v2 elev markers clen d hc hdvd hlen hd).1]
  exact hq

theorem mask_chunksLen (elev markers : List ℕ) (clen d : ℕ) (hc : 0 < clen)
    (hdvd : clen ∣ markers.length) (hlen : elev.length = markers.length) (hd : d ≤ clen) :
    chunksLen (ws_mask elev markers clen d) (markers.length / clen) (clen + 2 * d) := by
  have hfp := wsFp_chunksLen_v2 elev markers clen d hc hdvd hlen hd
  constructor
  · rw [ws_mask, List.length_map, hfp.1]
  · intro ch hch
    simp only [ws_mask, List.mem_map] at hch
    obtain ⟨a, haa, rfl⟩ := hch
    rw [List.length_map, hfp.2 a haa]

theorem mask_getD (elev markers : List ℕ) (clen d : ℕ) (hc : 0 < clen)
    (hdvd : clen ∣ markers.length) (hlen : elev.length = markers.length) (hd : d ≤ clen)
    {q : ℕ} (hq : q < markers.length / clen) :
    (ws_mask elev markers clen d).getD q [] =
      ((ws_fp elev markers clen d).getD q []).map
        (fun x => decide (x = boundary_label markers)) := by
  apply getD_map_list
  rw [(wsFp_chunksLen_v2 elev markers clen d hc hdvd hlen hd).1]
  exact hq

theorem mSp_chunksLen (elev markers : List ℕ) (clen d : ℕ) (hc : 0 < clen)
    (hdvd : clen ∣ markers.length) (hlen : elev.length = markers.length) (hd : d ≤ clen) :
    chunksLen (ws_markers_sp elev markers clen d) (markers.length / clen) (clen + 2 * d) := by
  have hfp := wsFp_chunksLen_v2 elev markers clen d hc hdvd hlen hd
  have hrm := chunksLen_map (fun ch => remove_label ch (boundary_label markers))
    (fun a => remove_label_length a _) hfp
  have htrim := chunksLen_trimL d hrm
  have harith : clen + 2 * d - 2 * d = clen := by omega
  rw [harith] at htrim
  exact chunksLen_overlapL d _ htrim hd

theorem wsSp_chunksLen_v2 (elev markers : List ℕ) (clen d : ℕ) (hc : 0 < clen)
    (hdvd : clen ∣ markers.length) (hlen : elev.length = markers.length) (hd : d ≤ clen) :
    chunksLen (ws_sp elev markers clen d) (markers.length / clen) (clen + 2 * d) :=
  chunksLen_zipWith3_snd _ (fun a b c => floodOr0_length a b (some c))
    (hmaxOp_chunksLen_v2 elev markers clen d hc hdvd hlen hd).1
    (mSp_chunksLen elev markers clen d hc hdvd hlen hd)
    (mask_chunksLen elev markers clen d hc hdvd hlen hd).1

theorem wsSp_getD_v2 (elev markers : List ℕ) (clen d : ℕ) (hc : 0 < clen)
    (hdvd : clen ∣ markers.length) (hlen : elev.length = markers.length) (hd : d ≤ clen)
    {q : ℕ} (hq : q < markers.length / clen) :
    (ws_sp elev markers clen d).getD q [] =
      floodOr0 ((hmax_op elev clen d).getD q []) ((ws_markers_sp elev markers clen d).getD q [])
        (some ((ws_mask elev markers clen d).getD q [])) := by
  apply zipWith3_getD
  show q < (ws_sp elev markers clen d).length
  rw [(wsSp_chunksLen_v2 elev markers clen d hc hdvd hlen hd).1]
  exact hq

theorem composed_chunksLen (elev markers : List ℕ) (clen d : ℕ) (hc : 0 < clen)
    (hdvd : clen ∣ markers.length) (hlen : elev.length = markers.length) (hd : d ≤ clen) :
    chunksLen (zipWith3 compose (ws_fp elev markers clen d) (ws_sp elev markers clen d)
      (ws_mask elev markers clen d)) (markers.length / clen) (clen + 2 * d) :=
  chunksLen_zipWith3_fst _ (fun a b c => compose_length a b c)
    (wsFp_chunksLen_v2 elev markers clen d hc hdvd hlen hd)
    (wsSp_chunksLen_v2 elev markers clen d hc hdvd hlen hd).1
    (mask_chunksLen elev markers clen d hc hdvd hlen hd).1

theorem composed_getD (elev markers : List ℕ) (clen d : ℕ) (hc : 0 < clen)
    (hdvd : clen ∣ markers.length) (hlen : elev.length = markers.length) (hd : d ≤ clen)
    {q : ℕ} (hq : q < markers.length / clen) :
    (zipWith3 compose (ws_fp elev markers clen d) (ws_sp elev markers clen d)
      (ws_mask elev markers clen d)).getD q [] =
      compose ((ws_fp elev markers clen d).getD q []) ((ws_sp elev markers clen d).getD q [])
        ((ws_mask elev markers clen d).getD q []) := by
  apply zipWith3_getD
  rw [(composed_chunksLen elev markers clen d hc hdvd hlen hd).1]
  exact hq

/-- The final reassembled cell `i` is cell `d + i % clen` of the trimmed
composed chunk `i / clen`. -/
theorem final_cell_v2 (elev markers : List ℕ) (clen d : ℕ) (hc : 0 < clen)
    (hdvd : clen ∣ markers.length) (hlen : elev.length = markers.length) (hd : d ≤ clen)
    {i : ℕ} (hi : i < markers.length) :
    (ws_final elev markers clen d).getD i 0 =
      ((zipWith3 compose (ws_fp elev markers clen d) (ws_sp elev markers clen d)
        (ws_mask elev markers clen d)).getD (i / clen) []).getD (d + i % clen) 0 := by
  have hsp := composed_chunksLen elev markers clen d hc hdvd hlen hd
  have htrim := chunksLen_trimL d hsp
  have harith : clen + 2 * d - 2 * d = clen := by omega
  rw [harith] at htrim
  have hn := n_eq_k_mul hc hdvd
  have hq : i / clen < markers.length / clen := by
    rw [Nat.div_lt_iff_lt_mul hc]
    omega
  have hr : i % clen < clen := Nat.mod_lt i hc
  have hmain := flatten_cell (0 : ℕ) clen
    (trimL d (zipWith3 compose (ws_fp elev markers clen d) (ws_sp elev markers clen d)
      (ws_mask elev markers clen d))) htrim.2
    (i / clen) (i % clen) (by rw [htrim.1]; exact hq) hr
  have hidx : i / clen * clen + i % clen = i := by
    rw [Nat.mul_comm]
    exact Nat.div_add_mod i clen
  rw [hidx] at hmain
  rw [ws_final, hmain]
  have hq2 : i / clen < (zipWith3 compose (ws_fp elev markers clen d)
      (ws_sp elev markers clen d) (ws_mask elev markers clen d)).length := by
    rw [hsp.1]; exact hq
  rw [show (trimL d (zipWith3 compose (ws_fp elev markers clen d)
      (ws_sp elev markers clen d) (ws_mask elev markers clen d))).getD (i / clen) [] =
      trimChunk d ((zipWith3 compose (ws_fp elev markers clen d)
        (ws_sp elev markers clen d) (ws_mask elev markers clen d)).getD (i / clen) []) from
    getD_map_list _ _ _ hq2]
  apply trimChunk_getD
  rw [chunksLen_getD_length hsp hq]
  omega

theorem ovConst_core (markers : List ℕ) (clen d : ℕ) (hc : 0 < clen)
    (hdvd : clen ∣ markers.length) (hd : d ≤ clen) {q r : ℕ}
    (hq : q < markers.length / clen) (hr : r < clen) :
    ((overlapL d (BPolicy.const (boundary_label markers)) (chunkList clen markers)).getD
      q []).getD (d + r) 0 = markers.getD (q * clen + r) 0 := by
  have hch := chunksLen_chunkList clen markers hc hdvd
  have hq2 : q < (chunkList clen markers).length := by rw [hch.1]; exact hq
  rw [overlapL_core_getD d _ _ (fun ch hm => by rw [hch.2 ch hm]; omega) hq2
    (by rw [chunksLen_getD_length hch hq]; exact hr)]
  exact chunkList_cell 0 clen markers hc hr (cell_lt hq hr (n_eq_k_mul hc hdvd))

/-- The first pass keeps every original (core) seed. -/
theorem fp_core_seed (elev markers : List ℕ) (clen d : ℕ) (hc : 0 < clen)
    (hdvd : clen ∣ markers.length) (hlen : elev.length = markers.length) (hd : d ≤ clen)
    {i : ℕ} (hi : i < markers.length) (hm : markers.getD i 0 ≠ 0) :
    ((ws_fp elev markers clen d).getD (i / clen) []).getD (d + i % clen) 0 =
      markers.getD i 0 := by
  have hq : i / clen < markers.length / clen := by
    rw [Nat.div_lt_iff_lt_mul hc]
    have := n_eq_k_mul hc hdvd
    omega
  have hr : i % clen < clen := Nat.mod_lt i hc
  have hidx : i / clen * clen + i % clen = i := by
    rw [Nat.mul_comm]
    exact Nat.div_add_mod i clen
  have hov := ovConst_chunksLen markers clen d hc hdvd hd
  have hmarker : ((ws_markers_op markers clen d).getD (i / clen) []).getD
      (d + i % clen) 0 = markers.getD i 0 := by
    rw [mOp_getD markers clen d hc hdvd hd hq]
    rw [build_full_markers_getD_v2 _ d _ (by
      rw [chunksLen_getD_length hov hq]
      omega)]
    rw [ovConst_core markers clen d hc hdvd hd hq hr, hidx]
    rw [if_pos (by omega)]
  rw [wsFp_getD_v2 elev markers clen d hc hdvd hlen hd hq,
    floodOr0_markers _ _ _ _ (by rw [hmarker]; exact hm), hmarker]

theorem seed_cell_v2 (elev markers : List ℕ) (clen d : ℕ) (hc : 0 < clen)
    (hdvd : clen ∣ markers.length) (hlen : elev.length = markers.length) (hd : d ≤ clen)
    {i : ℕ} (hi : i < markers.length) (hm : markers.getD i 0 ≠ 0) :
    (ws_final elev markers clen d).getD i 0 = markers.getD i 0 := by
  have hq : i / clen < markers.length / clen := by
    rw [Nat.div_lt_iff_lt_mul hc]
    have := n_eq_k_mul hc hdvd
    omega
  have hfp := wsFp_chunksLen_v2 elev markers clen d hc hdvd hlen hd
  have hfpseed := fp_core_seed elev markers clen d hc hdvd hlen hd hi hm
  have hmaskval : ((ws_mask elev markers clen d).getD (i / clen) []).getD
      (d + i % clen) false = false := by
    rw [mask_getD elev markers clen d hc hdvd hlen hd hq]
    have hb : d + i % clen < ((ws_fp elev markers clen d).getD (i / clen) []).length := by
      rw [chunksLen_getD_length hfp hq]
      have := Nat.mod_lt i hc
      omega
    rw [List.getD_eq_getElem _ _ (by simpa using hb), List.getElem_map,
      ← List.getD_eq_getElem _ _ hb, hfpseed]
    simp only [decide_eq_false_iff_not]
    have := marker_lt_sentinel markers hi
    omega
  rw [final_cell_v2 elev markers clen d hc hdvd hlen hd hi,
    composed_getD elev markers clen d hc hdvd hlen hd hq,
    compose_getD _ _ _ (by
      rw [chunksLen_getD_length hfp hq]
      have := Nat.mod_lt i hc
      omega),
    hmaskval]
  rw [if_neg (by simp), hfpseed]

end V2

/-- Claim C3 (seed precedence): under the geometry invariant (positive chunk
length dividing the domain length, halo depth at most the chunk length,
co-indexed elevation), every cell whose original marker is nonzero keeps
exactly that marker label in the final reassembled output of both the
DirectSharing and the SentinelBasinSharing pipeline — a true seed is never
relabeled by either pass. -/
theorem claim_C3_seed_precedence (elev markers : List ℕ) (clen d : ℕ)
    (hc : 0 < clen) (hdvd : clen ∣ markers.length) (hlen : elev.length = markers.length)
    (hd : d ≤ clen) (i : ℕ) (hi : i < markers.length) (hm : markers.getD i 0 ≠ 0) :
    (V1.ws_final elev markers clen d).getD i 0 = markers.getD i 0 ∧
    (V2.ws_final elev markers clen d).getD i 0 = markers.getD i 0 :=
  ⟨V1.seed_cell elev markers clen d hc hdvd hlen hd hi hm,
   V2.seed_cell_v2 elev markers clen d hc hdvd hlen hd hi hm⟩

/-- Witness for claim C3 at a concrete input. -/
theorem claim_C3_seed_precedence_witness :
    (V1.ws_final [0, 1, 2, 3] [1, 0, 0, 2] 2 1).getD 3 0 = ([1, 0, 0, 2] : List ℕ).getD 3 0 ∧
    (V2.ws_final [0, 1, 2, 3] [1, 0, 0, 2] 2 1).getD 3 0 = ([1, 0, 0, 2] : List ℕ).getD 3 0 :=
  claim_C3_seed_precedence [0, 1, 2, 3] [1, 0, 0, 2] 2 1 (by decide) (by decide)
    (by decide) (by decide) 3 (by decide) (by decide)

/-! ### Ring access to exchanged chunks -/

theorem overlapL_ringL_getD (d : ℕ) (p : BPolicy) (chs : List (List ℕ))
    {q j : ℕ} (hq : q < chs.length) (hq0 : q ≠ 0) (hj : j < d)
    (hd : d ≤ (chs.getD (q - 1) []).length) :
    ((overlapL d p chs).getD q []).getD j 0 =
      (chs.getD (q - 1) []).getD ((chs.getD (q - 1) []).length - d + j) 0 := by
  rw [overlapL_getD d p chs hq]
  have hpl : (padL d p chs q).length = d := by
    unfold padL
    rw [if_neg hq0]
    exact takeLast_length d _ hd
  rw [List.getD_append _ _ _ _ (by
    simp only [List.length_append, hpl]
    omega)]
  rw [List.getD_append _ _ _ _ (by omega)]
  unfold padL
  rw [if_neg hq0]
  unfold takeLast
  have hb : j < ((chs.getD (q - 1) []).drop ((chs.getD (q - 1) []).length - d)).length := by
    simp only [List.length_drop]
    omega
  rw [List.getD_eq_getElem _ _ hb, List.getElem_drop,
    ← List.getD_eq_getElem _ _ (by simp only [List.length_drop] at hb; omega)]

theorem overlapL_ringL_edge (d : ℕ) (v : ℕ) (chs : List (List ℕ))
    {j : ℕ} (h0 : 0 < chs.length) (hj : j < d) :
    ((overlapL d (BPolicy.const v) chs).getD 0 []).getD j 0 = v := by
  rw [overlapL_getD d _ chs h0]
  have hpl : (padL d (BPolicy.const v) chs 0).length = d := by
    unfold padL
    rw [if_pos rfl]
    exact edgeFillL_length _ d _
  rw [List.getD_append _ _ _ _ (by
    simp only [List.length_append, hpl]
    omega)]
  rw [List.getD_append _ _ _ _ (by omega)]
  unfold padL
  rw [if_pos rfl]
  unfold edgeFillL
  rw [List.getD_eq_getElem _ _ (by simpa using hj)]
  simp

theorem overlapL_ringR_getD (d : ℕ) (p : BPolicy) (chs : List (List ℕ))
    {q j : ℕ} (hq : q < chs.length) (hq1 : q + 1 ≠ chs.length) (hj : j < d)
    (hall : ∀ ch ∈ chs, d ≤ ch.length) :
    ((overlapL d p chs).getD q []).getD (d + (chs.getD q []).length + j) 0 =
      (chs.getD (q + 1) []).getD j 0 := by
  rw [overlapL_getD d p chs hq]
  have hpl : (padL d p chs q).length = d := padL_length d p chs q hall hq
  rw [List.getD_append_right _ _ _ _ (by
    simp only [List.length_append, hpl]
    omega)]
  have harith : d + (chs.getD q []).length + j -
      (padL d p chs q ++ chs.getD q []).length = j := by
    simp only [List.length_append, hpl]
    omega
  rw [harith]
  unfold padR
  rw [if_neg hq1]
  have hb : j < ((chs.getD (q + 1) []).take d).length := by
    simp only [List.length_take]
    have := hall _ (getD_mem_of_lt chs [] (show q + 1 < chs.length by omega))
    omega
  rw [List.getD_eq_getElem _ _ hb, List.getElem_take,
    ← List.getD_eq_getElem _ _ (by
      simp only [List.length_take] at hb
      have := hall _ (getD_mem_of_lt chs [] (show q + 1 < chs.length by omega))
      omega)]

theorem overlapL_ringR_edge (d : ℕ) (v : ℕ) (chs : List (List ℕ))
    {q j : ℕ} (hq : q < chs.length) (hq1 : q + 1 = chs.length) (hj : j < d)
    (hall : ∀ ch ∈ chs, d ≤ ch.length) :
    ((overlapL d (BPolicy.const v) chs).getD q []).getD (d + (chs.getD q []).length + j) 0
      = v := by
  rw [overlapL_getD d _ chs hq]
  have hpl : (padL d (BPolicy.const v) chs q).length = d :=
    padL_length d _ chs q hall hq
  rw [List.getD_append_right _ _ _ _ (by
    simp only [List.length_append, hpl]
    omega)]
  have harith : d + (chs.getD q []).length + j -
      (padL d (BPolicy.const v) chs q ++ chs.getD q []).length = j := by
    simp only [List.length_append, hpl]
    omega
  rw [harith]
  unfold padR
  rw [if_pos hq1]
  unfold edgeFillR
  rw [List.getD_eq_getElem _ _ (by simpa using hj)]
  simp

/-! ### Evaluation of the ring predicate at core and ring positions -/

theorem inRing_left {len d j : ℕ} (hj : j < d) : inRing len d j = true := by
  simp only [inRing, Bool.or_eq_true, decide_eq_true_eq]
  omega

theorem inRing_core {clen d r : ℕ} (hd0 : 0 < d) (hr : r < clen) :
    inRing (clen + 2 * d) d (d + r) = false := by
  simp only [inRing, Bool.or_eq_false_iff, decide_eq_false_iff_not]
  omega

theorem inRing_right {clen d j : ℕ} ( _hj : j < d) :
    inRing (clen + 2 * d) d (d + clen + j) = true := by
  simp only [inRing, Bool.or_eq_true, decide_eq_true_eq]
  omega

/-! ### Claim C7: the SentinelBasinSharing first-pass markers -/

/-- Counterexample to claim C7 as stated: with markers `[1, 2, 0, 0]`, chunk
length 2 and halo depth 1, the neighbor of chunk 1 has the nonzero marker
`2` directly at the shared face, so the halo-ring cell (position 0 of the
padded chunk 1, which is not a core cell) of the first-pass marker image
carries the neighbor's label `2` and not the sentinel
`boundary_label [1, 2, 0, 0] = 3` — the halo is not sentinel
"regardless of the neighbor's actual content". -/
theorem claim_C7_counterexample :
    ((V2.ws_markers_op [1, 2, 0, 0] 2 1).getD 1 []).getD 0 0 = 2 ∧
    boundary_label [1, 2, 0, 0] = 3 ∧
    ((V2.ws_markers_op [1, 2, 0, 0] 2 1).getD 1 []).getD 0 0 ≠
      boundary_label [1, 2, 0, 0] := by
  decide

/-- Claim C7 as amended: in the SentinelBasinSharing strategy, under the
geometry invariant and a positive halo depth, the first-pass marker image of
every padded chunk is: on each core cell the original marker (so 0 where
unmarked); on each halo-ring cell the sentinel, except that a nonzero
exchanged marker overrides it — at an interior face that exchanged value is
the neighboring chunk's original marker for that cell, and at a domain edge
the constant fill is the sentinel itself, so domain-edge ring cells are
always sentinel. -/
theorem claim_C7_sentinel_markers (markers : List ℕ) (clen d : ℕ) (hc : 0 < clen)
    (hdvd : clen ∣ markers.length) (hd : d ≤ clen) (hd0 : 0 < d)
    {q : ℕ} (hq : q < markers.length / clen) :
    (∀ r < clen, ((V2.ws_markers_op markers clen d).getD q []).getD (d + r) 0
       = markers.getD (q * clen + r) 0) ∧
    (∀ j < d, ((V2.ws_markers_op markers clen d).getD q []).getD j 0
       = if q = 0 then boundary_label markers
         else if 0 < markers.getD ((q - 1) * clen + (clen - d + j)) 0
           then markers.getD ((q - 1) * clen + (clen - d + j)) 0
           else boundary_label markers) ∧
    (∀ j < d, ((V2.ws_markers_op markers clen d).getD q []).getD (d + clen + j) 0
       = if q + 1 = markers.length / clen then boundary_label markers
         else if 0 < markers.getD ((q + 1) * clen + j) 0
           then markers.getD ((q + 1) * clen + j) 0
           else boundary_label markers) := by
  have hch := chunksLen_chunkList clen markers hc hdvd
  have hall : ∀ ch ∈ chunkList clen markers, d ≤ ch.length := fun ch hm => by
    rw [hch.2 ch hm]; exact hd
  have hov := V2.ovConst_chunksLen markers clen d hc hdvd hd
  have hovq : ((overlapL d (BPolicy.const (boundary_label markers))
      (chunkList clen markers)).getD q []).length = clen + 2 * d :=
    chunksLen_getD_length hov hq
  have hq2 : q < (chunkList clen markers).length := by rw [hch.1]; exact hq
  refine ⟨?_, ?_, ?_⟩
  · intro r hr
    rw [V2.mOp_getD markers clen d hc hdvd hd hq,
      V2.build_full_markers_getD_v2 _ d _ (by rw [hovq]; omega)]
    rw [V2.ovConst_core markers clen d hc hdvd hd hq hr]
    by_cases hpos : 0 < markers.getD (q * clen + r) 0
    · rw [if_pos hpos]
    · rw [if_neg hpos, mask_overlap_getD _ d _ (by rw [hovq]; omega), hovq,
        inRing_core hd0 hr]
      simp only [Bool.false_eq_true, if_false]
      omega
  · intro j hj
    rw [V2.mOp_getD markers clen d hc hdvd hd hq,
      V2.build_full_markers_getD_v2 _ d _ (by rw [hovq]; omega)]
    by_cases hq0 : q = 0
    · subst hq0
      rw [overlapL_ringL_edge d _ _ (by omega) hj]
      rw [if_pos (boundary_label_pos markers), if_pos rfl]
    · rw [overlapL_ringL_getD d _ _ hq2 hq0 hj (hall _ (getD_mem_of_lt _ [] (by omega)))]
      have hlprev : ((chunkList clen markers).getD (q - 1) []).length = clen :=
        chunksLen_getD_length hch (by omega)
      rw [hlprev]
      rw [chunkList_cell 0 clen markers hc (show clen - d + j < clen by omega)
        (cell_lt (show q - 1 < markers.length / clen by omega)
          (show clen - d + j < clen by omega) (n_eq_k_mul hc hdvd))]
      rw [if_neg hq0]
      by_cases hpos : 0 < markers.getD ((q - 1) * clen + (clen - d + j)) 0
      · rw [if_pos hpos, if_pos hpos]
      · rw [if_neg hpos, if_neg hpos, mask_overlap_getD _ d _ (by rw [hovq]; omega),
          inRing_left hj]
        simp
  · intro j hj
    rw [V2.mOp_getD markers clen d hc hdvd hd hq,
      V2.build_full_markers_getD_v2 _ d _ (by rw [hovq]; omega)]
    have hlq : ((chunkList clen markers).getD q []).length = clen :=
      chunksLen_getD_length hch hq
    by_cases hq1 : q + 1 = markers.length / clen
    · have hq1e : q + 1 = (chunkList clen markers).length := by rw [hch.1]; exact hq1
      have := overlapL_ringR_edge d (boundary_label markers) (chunkList clen markers)
        hq2 hq1e hj hall
      rw [hlq] at this
      rw [this, if_pos (boundary_label_pos markers), if_pos hq1]
    · have hq1e : q + 1 ≠ (chunkList clen markers).length := by rw [hch.1]; exact hq1
      have hnext : q + 1 < (chunkList clen markers).length := by
        rw [hch.1]
        omega
      have := overlapL_ringR_getD d (BPolicy.const (boundary_label markers))
        (chunkList clen markers) hq2 hq1e hj hall
      rw [hlq] at this
      rw [this]
      rw [chunkList_cell 0 clen markers hc (show j < clen by omega)
        (cell_lt (show q + 1 < markers.length / clen by omega)
          (show j < clen by omega) (n_eq_k_mul hc hdvd))]
      rw [if_neg hq1]
      by_cases hpos : 0 < markers.getD ((q + 1) * clen + j) 0
      · rw [if_pos hpos, if_pos hpos]
      · rw [if_neg hpos, if_neg hpos, mask_overlap_getD _ d _ (by rw [hovq]; omega),
          hovq, inRing_right hj]
        simp

/-- Witness for the amended claim C7 at a concrete input: the interior-face
halo cell adopts the neighbor's nonzero marker. -/
theorem claim_C7_sentinel_markers_witness :
    ((V2.ws_markers_op [1, 2, 0, 0] 2 1).getD 1 []).getD 0 0 = 2 := by
  have h := (claim_C7_sentinel_markers [1, 2, 0, 0] 2 1 (by decide) (by decide)
    (by decide) (by decide) (show 1 < ([1, 2, 0, 0] : List ℕ).length / 2 by decide)).2.1
    0 (by decide)
  simpa using h

/-! ### Claim C8: the DirectSharing merged second-pass markers -/

/-- Claim C8 (DirectSharing merged markers): under the geometry invariant
and a positive halo depth, the merged second-pass marker image of every
padded chunk assigns to every cell: the original (exchanged) marker's label
where that marker is nonzero; otherwise, on a halo-ring cell of an interior
face, the neighbor chunk's trimmed pass-1 label for that cell; otherwise
(core cells with no marker) zero. -/
theorem claim_C8_direct_sharing_markers (elev markers : List ℕ) (clen d : ℕ)
    (hc : 0 < clen) (hdvd : clen ∣ markers.length) (hlen : elev.length = markers.length)
    (hd : d ≤ clen) (hd0 : 0 < d) {q : ℕ} (hq : q < markers.length / clen) :
    (∀ r < clen, ((V1.full_labels_op elev markers clen d).getD q []).getD (d + r) 0
       = if 0 < markers.getD (q * clen + r) 0 then markers.getD (q * clen + r) 0 else 0) ∧
    (∀ j < d, q ≠ 0 → ((V1.full_labels_op elev markers clen d).getD q []).getD j 0
       = if 0 < markers.getD ((q - 1) * clen + (clen - d + j)) 0
         then markers.getD ((q - 1) * clen + (clen - d + j)) 0
         else ((trimL d (V1.ws_fp elev markers clen d)).getD (q - 1) []).getD
           (clen - d + j) 0) ∧
    (∀ j < d, q + 1 ≠ markers.length / clen →
       ((V1.full_labels_op elev markers clen d).getD q []).getD (d + clen + j) 0
       = if 0 < markers.getD ((q + 1) * clen + j) 0
         then markers.getD ((q + 1) * clen + j) 0
         else ((trimL d (V1.ws_fp elev markers clen d)).getD (q + 1) []).getD j 0) := by
  have hch := chunksLen_chunkList clen markers hc hdvd
  have hall : ∀ ch ∈ chunkList clen markers, d ≤ ch.length := fun ch hm => by
    rw [hch.2 ch hm]; exact hd
  have hq2 : q < (chunkList clen markers).length := by rw [hch.1]; exact hq
  have hnb := V1.wsNeighbors_chunksLen elev markers clen d hc hdvd hlen hd
  have hnbq : ((V1.ws_neighbors elev markers clen d).getD q []).length = clen + 2 * d :=
    chunksLen_getD_length hnb hq
  have hfpt := chunksLen_trimL d (V1.wsFp_chunksLen elev markers clen d hc hdvd hlen hd)
  have harith : clen + 2 * d - 2 * d = clen := by omega
  rw [harith] at hfpt
  have halltrim : ∀ ch ∈ trimL d (V1.ws_fp elev markers clen d), d ≤ ch.length :=
    fun ch hm => by rw [hfpt.2 ch hm]; exact hd
  have hmq : q < (trimL d (V1.ws_fp elev markers clen d)).length := by
    rw [hfpt.1]; exact hq
  refine ⟨?_, ?_, ?_⟩
  · intro r hr
    rw [V1.fullLabels_getD elev markers clen d hc hdvd hlen hd hq,
      V1.build_full_markers_getD _ _ d (by rw [hnbq]; omega),
      V1.mOp_core markers clen d hc hdvd hd hq hr,
      grab_overlap_getD _ d (by rw [hnbq]; omega), hnbq, inRing_core hd0 hr]
    simp
  · intro j hj hq0
    rw [V1.fullLabels_getD elev markers clen d hc hdvd hlen hd hq,
      V1.build_full_markers_getD _ _ d (by rw [hnbq]; omega)]
    have hmring : ((V1.ws_markers_op markers clen d).getD q []).getD j 0 =
        markers.getD ((q - 1) * clen + (clen - d + j)) 0 := by
      rw [V1.ws_markers_op, overlapL_ringL_getD d _ _ hq2 hq0 hj
        (hall _ (getD_mem_of_lt _ [] (by omega)))]
      have hlprev : ((chunkList clen markers).getD (q - 1) []).length = clen :=
        chunksLen_getD_length hch (by omega)
      rw [hlprev, chunkList_cell 0 clen markers hc (show clen - d + j < clen by omega)
        (cell_lt (show q - 1 < markers.length / clen by omega)
          (show clen - d + j < clen by omega) (n_eq_k_mul hc hdvd))]
    have hnbring : (grab_overlap ((V1.ws_neighbors elev markers clen d).getD q []) d).getD
        j 0 = ((trimL d (V1.ws_fp elev markers clen d)).getD (q - 1) []).getD
          (clen - d + j) 0 := by
      rw [grab_overlap_getD _ d (by rw [hnbq]; omega), inRing_left hj]
      simp only [if_true]
      rw [V1.ws_neighbors, overlapL_ringL_getD d _ _ (by rw [hfpt.1]; exact hq) hq0 hj
        (halltrim _ (getD_mem_of_lt _ [] (by rw [hfpt.1]; omega)))]
      rw [chunksLen_getD_length hfpt (show q - 1 < markers.length / clen by omega)]
    rw [hmring, hnbring]
  · intro j hj hq1
    rw [V1.fullLabels_getD elev markers clen d hc hdvd hlen hd hq,
      V1.build_full_markers_getD _ _ d (by rw [hnbq]; omega)]
    have hq1e : q + 1 ≠ (chunkList clen markers).length := by rw [hch.1]; exact hq1
    have hnext : q + 1 < markers.length / clen := by omega
    have hlq : ((chunkList clen markers).getD q []).length = clen :=
      chunksLen_getD_length hch hq
    have hmring : ((V1.ws_markers_op markers clen d).getD q []).getD (d + clen + j) 0 =
        markers.getD ((q + 1) * clen + j) 0 := by
      rw [V1.ws_markers_op]
      have h2 := overlapL_ringR_getD d BPolicy.nearest (chunkList clen markers) hq2 hq1e hj hall
      rw [hlq] at h2
      rw [h2, chunkList_cell 0 clen markers hc (show j < clen by omega)
        (cell_lt hnext (show j < clen by omega) (n_eq_k_mul hc hdvd))]
    have hnbring : (grab_overlap ((V1.ws_neighbors elev markers clen d).getD q []) d).getD
        (d + clen + j) 0 = ((trimL d (V1.ws_fp elev markers clen d)).getD (q + 1) []).getD
          j 0 := by
      rw [grab_overlap_getD _ d (by rw [hnbq]; omega), hnbq, inRing_right hj]
      simp only [if_true]
      rw [V1.ws_neighbors]
      have hq1t : q + 1 ≠ (trimL d (V1.ws_fp elev markers clen d)).length := by
        rw [hfpt.1]; exact hq1
      have h2 := overlapL_ringR_getD d BPolicy.nearest
        (trimL d (V1.ws_fp elev markers clen d)) hmq hq1t hj halltrim
      rw [chunksLen_getD_length hfpt hq] at h2
      rw [h2]
    rw [hmring, hnbring]

/-- Witness for claim C8 at a concrete input: with markers `[1, 0, 0, 2]`
and flat elevation, the unmarked interior-face halo cell of chunk 1 adopts
chunk 0's trimmed pass-1 label for that cell. -/
theorem claim_C8_direct_sharing_markers_witness :
    ((V1.full_labels_op [0, 0, 0, 0] [1, 0, 0, 2] 2 1).getD 1 []).getD 0 0 =
      ((trimL 1 (V1.ws_fp [0, 0, 0, 0] [1, 0, 0, 2] 2 1)).getD 0 []).getD 1 0 := by
  have h := (claim_C8_direct_sharing_markers [0, 0, 0, 0] [1, 0, 0, 2] 2 1 (by decide)
    (by decide) (by decide) (by decide) (by decide)
    (show 1 < ([1, 0, 0, 2] : List ℕ).length / 2 by decide)).2.1 0 (by decide) (by decide)
  simpa using h

/-! ### Claim C6: determinism and order-independence of the chunk schedule -/

/-- Scheduled execution of `k` independent per-chunk tasks: the tasks are
computed in the order given by `order` and the results are then assembled
by chunk index.  This models dispatching the pure per-chunk functions of
the pipelines to a scheduler that may run them in any order. -/
def assemble {α : Type} (k : ℕ) (order : List ℕ) (f : ℕ → α) (dflt : α) : List α :=
  (List.range k).map fun i =>
    (((order.map fun q => (q, f q)).find? fun p => p.1 == i).map Prod.snd).getD dflt

theorem find?_map_pair {α : Type} (f : ℕ → α) (order : List ℕ) (i : ℕ) (hi : i ∈ order) :
    ((order.map fun q => (q, f q)).find? fun p => p.1 == i) = some (i, f i) := by
  induction order with
  | nil => simp at hi
  | cons q rest ih =>
    by_cases hqi : q = i
    · subst hqi
      simp only [List.map_cons]
      rw [List.find?_cons_of_pos _ (by simp)]
    · simp only [List.map_cons]
      rw [List.find?_cons_of_neg _ (by simp [hqi])]
      exact ih (by
        rcases List.mem_cons.mp hi with h | h
        · exact absurd h.symm hqi
        · exact h)

/-- Scheduled execution is independent of the order: any order that covers
every chunk index yields the in-order result. -/
theorem assemble_eq {α : Type} (k : ℕ) (order : List ℕ) (f : ℕ → α) (dflt : α)
    (hcover : ∀ i < k, i ∈ order) :
    assemble k order f dflt = (List.range k).map f := by
  unfold assemble
  apply List.ext_getElem
  · simp
  intro i h1 h2
  have hik : i < k := by simpa using h2
  simp only [List.getElem_map, List.getElem_range]
  rw [find?_map_pair f order i (hcover i hik)]
  rfl

theorem zipWith_eq_map_range (f : List ℕ → List ℕ → List ℕ) (as bs : List (List ℕ)) :
    List.zipWith f as bs =
      (List.range (min as.length bs.length)).map
        (fun q => f (as.getD q []) (bs.getD q [])) := by
  apply List.ext_getElem
  · simp
  intro i h1 h2
  have hi : i < (List.zipWith f as bs).length := h1
  rw [← List.getD_eq_getElem _ [] h1, ← List.getD_eq_getElem _ [] h2,
    zipWith_getD f as bs [] [] [] i hi,
    List.getD_eq_getElem _ _ h2]
  simp only [List.getElem_map, List.getElem_range]

theorem zipWith3_eq_map_range {α : Type} (f : List ℕ → List ℕ → List α → List ℕ)
    (as bs : List (List ℕ)) (cs : List (List α)) :
    zipWith3 f as bs cs =
      (List.range (min as.length (min bs.length cs.length))).map
        (fun q => f (as.getD q []) (bs.getD q []) (cs.getD q [])) := by
  apply List.ext_getElem
  · simp [zipWith3_length]
  intro i h1 h2
  rw [← List.getD_eq_getElem _ [] h1, ← List.getD_eq_getElem _ [] h2,
    zipWith3_getD f as bs cs [] [] [] [] i h1,
    List.getD_eq_getElem _ _ h2]
  simp only [List.getElem_map, List.getElem_range]

theorem zipWith_zipWith_eq_map_range (f g : List ℕ → List ℕ → List ℕ)
    (as bs cs : List (List ℕ)) :
    List.zipWith f as (List.zipWith g bs cs) =
      (List.range (min as.length (min bs.length cs.length))).map
        (fun q => f (as.getD q []) (g (bs.getD q []) (cs.getD q []))) := by
  apply List.ext_getElem
  · simp
  intro i h1 h2
  have hi2 : i < min as.length (min bs.length cs.length) := by simpa using h2
  rw [← List.getD_eq_getElem _ [] h1, zipWith_getD f _ _ [] [] [] i h1,
    zipWith_getD g bs cs [] [] [] i (by simp only [List.length_zipWith]; omega)]
  simp only [List.getElem_map, List.getElem_range]

namespace V1

/-- First flood pass dispatched in the chunk order `o1`. -/
def ws_fp_sched (elev markers : List ℕ) (clen d : ℕ) (o1 : List ℕ) : List (List ℕ) :=
  assemble (min (hmax_op elev clen d).length (ws_markers_op markers clen d).length)
    o1 (fun q => floodOr0 ((hmax_op elev clen d).getD q [])
      ((ws_markers_op markers clen d).getD q []) none) []

/-- The DirectSharing pipeline with both flood passes dispatched in
arbitrary chunk orders `o1` (pass 1) and `o2` (pass 2); the halo
re-exchange between the passes is the synchronization barrier. -/
def ws_final_sched (elev markers : List ℕ) (clen d : ℕ) (o1 o2 : List ℕ) : List ℕ :=
  (trimL d (assemble
    (min (hmax_op elev clen d).length
      (min (ws_markers_op markers clen d).length
        (overlapL d BPolicy.nearest (trimL d (ws_fp_sched elev markers clen d o1))).length))
    o2 (fun q => floodOr0 ((hmax_op elev clen d).getD q [])
      (build_full_markers ((ws_markers_op markers clen d).getD q [])
        ((overlapL d BPolicy.nearest
          (trimL d (ws_fp_sched elev markers clen d o1))).getD q []) d)
      none) [])).flatten

theorem ws_fp_sched_eq (elev markers : List ℕ) (clen d : ℕ) (o1 : List ℕ)
    (h1 : o1.Perm (List.range
      (min (hmax_op elev clen d).length (ws_markers_op markers clen d).length))) :
    ws_fp_sched elev markers clen d o1 = ws_fp elev markers clen d := by
  rw [ws_fp_sched, assemble_eq _ _ _ _
    (fun i hi => h1.mem_iff.mpr (List.mem_range.mpr hi)), ws_fp]
  exact (zipWith_eq_map_range (fun e m => floodOr0 e m none) _ _).symm

theorem ws_final_sched_eq (elev markers : List ℕ) (clen d : ℕ) (o1 o2 : List ℕ)
    (h1 : o1.Perm (List.range
      (min (hmax_op elev clen d).length (ws_markers_op markers clen d).length)))
    (h2 : o2.Perm (List.range
      (min (hmax_op elev clen d).length
        (min (ws_markers_op markers clen d).length
          (ws_neighbors elev markers clen d).length)))) :
    ws_final_sched elev markers clen d o1 o2 = ws_final elev markers clen d := by
  rw [ws_final_sched, ws_fp_sched_eq elev markers clen d o1 h1]
  rw [show overlapL d BPolicy.nearest (trimL d (ws_fp elev markers clen d)) =
    ws_neighbors elev markers clen d from rfl]
  rw [assemble_eq _ _ _ _ (fun i hi => h2.mem_iff.mpr (List.mem_range.mpr hi))]
  rw [ws_final, ws_sp_op, full_labels_op,
    zipWith_zipWith_eq_map_range (fun e m => floodOr0 e m none)
      (fun m nb => build_full_markers m nb d) (hmax_op elev clen d)
      (ws_markers_op markers clen d) (ws_neighbors elev markers clen d)]

end V1

namespace V2

/-- First flood pass dispatched in the chunk order `o1`. -/
def ws_fp_sched (elev markers : List ℕ) (clen d : ℕ) (o1 : List ℕ) : List (List ℕ) :=
  assemble (min (hmax_op elev clen d).length (ws_markers_op markers clen d).length)
    o1 (fun q => floodOr0 ((hmax_op elev clen d).getD q [])
      ((ws_markers_op markers clen d).getD q []) none) []

/-- The SentinelBasinSharing pipeline with both flood passes dispatched in
arbitrary chunk orders `o1` (pass 1) and `o2` (pass 2). -/
def ws_final_sched (elev markers : List ℕ) (clen d : ℕ) (o1 o2 : List ℕ) : List ℕ :=
  (trimL d (zipWith3 compose (ws_fp_sched elev markers clen d o1)
    (assemble
      (min (hmax_op elev clen d).length
        (min (overlapL d BPolicy.nearest (trimL d ((ws_fp_sched elev markers clen d o1).map
          fun ch => remove_label ch (boundary_label markers)))).length
          ((ws_fp_sched elev markers clen d o1).map fun ch => ch.map
            fun x => decide (x = boundary_label markers)).length))
      o2 (fun q => floodOr0 ((hmax_op elev clen d).getD q [])
        ((overlapL d BPolicy.nearest (trimL d ((ws_fp_sched elev markers clen d o1).map
          fun ch => remove_label ch (boundary_label markers)))).getD q [])
        (some (((ws_fp_sched elev markers clen d o1).map fun ch => ch.map
          fun x => decide (x = boundary_label markers)).getD q []))) [])
    ((ws_fp_sched elev markers clen d o1).map fun ch => ch.map
      fun x => decide (x = boundary_label markers)))).flatten

theorem ws_fp_sched_eq_v2 (elev markers : List ℕ) (clen d : ℕ) (o1 : List ℕ)
    (h1 : o1.Perm (List.range
      (min (hmax_op elev clen d).length (ws_markers_op markers clen d).length))) :
    ws_fp_sched elev markers clen d o1 = ws_fp elev markers clen d := by
  rw [ws_fp_sched, assemble_eq _ _ _ _
    (fun i hi => h1.mem_iff.mpr (List.mem_range.mpr hi)), ws_fp]
  exact (zipWith_eq_map_range (fun e m => floodOr0 e m none) _ _).symm

theorem ws_final_sched_eq_v2 (elev markers : List ℕ) (clen d : ℕ) (o1 o2 : List ℕ)
    (h1 : o1.Perm (List.range
      (min (hmax_op elev clen d).length (ws_markers_op markers clen d).length)))
    (h2 : o2.Perm (List.range
      (min (hmax_op elev clen d).length
        (min (ws_markers_sp elev markers clen d).length
          (ws_mask elev markers clen d).length)))) :
    ws_final_sched elev markers clen d o1 o2 = ws_final elev markers clen d := by
  rw [ws_final_sched, ws_fp_sched_eq_v2 elev markers clen d o1 h1]
  rw [show overlapL d BPolicy.nearest (trimL d ((ws_fp elev markers clen d).map
      fun ch => remove_label ch (boundary_label markers))) =
    ws_markers_sp elev markers clen d from rfl]
  rw [show (ws_fp elev markers clen d).map (fun ch => ch.map
      fun x => decide (x = boundary_label markers)) = ws_mask elev markers clen d from rfl]
  rw [assemble_eq _ _ _ _ (fun i hi => h2.mem_iff.mpr (List.mem_range.mpr hi))]
  rw [ws_final, ws_sp,
    zipWith3_eq_map_range (fun e m k => floodOr0 e m (some k)) (hmax_op elev clen d)
      (ws_markers_sp elev markers clen d) (ws_mask elev markers clen d)]

end V2

/-- Claim C6 (determinism): the full two-pass pipeline, with its per-chunk
flood tasks dispatched in arbitrary orders, produces a result that is
independent of those orders and equal to the reference (in-order) pipeline
— so two runs on identical inputs are bit-identical regardless of chunk
scheduling, for both strategies.  Every per-chunk task is a pure function
of its own chunk-plus-halo data, and the inter-pass re-exchange is the only
synchronization point. -/
theorem claim_C6_determinism (elev markers : List ℕ) (clen d : ℕ)
    (o1 o2 o1' o2' u1 u2 u1' u2' : List ℕ)
    (ho1 : o1.Perm (List.range (min (V1.hmax_op elev clen d).length
      (V1.ws_markers_op markers clen d).length)))
    (ho2 : o2.Perm (List.range (min (V1.hmax_op elev clen d).length
      (min (V1.ws_markers_op markers clen d).length
        (V1.ws_neighbors elev markers clen d).length))))
    (ho1' : o1'.Perm (List.range (min (V1.hmax_op elev clen d).length
      (V1.ws_markers_op markers clen d).length)))
    (ho2' : o2'.Perm (List.range (min (V1.hmax_op elev clen d).length
      (min (V1.ws_markers_op markers clen d).length
        (V1.ws_neighbors elev markers clen d).length))))
    (hu1 : u1.Perm (List.range (min (V2.hmax_op elev clen d).length
      (V2.ws_markers_op markers clen d).length)))
    (hu2 : u2.Perm (List.range (min (V2.hmax_op elev clen d).length
      (min (V2.ws_markers_sp elev markers clen d).length
        (V2.ws_mask elev markers clen d).length))))
    (hu1' : u1'.Perm (List.range (min (V2.hmax_op elev clen d).length
      (V2.ws_markers_op markers clen d).length)))
    (hu2' : u2'.Perm (List.range (min (V2.hmax_op elev clen d).length
      (min (V2.ws_markers_sp elev markers clen d).length
        (V2.ws_mask elev markers clen d).length)))) :
    (V1.ws_final_sched elev markers clen d o1 o2
        = V1.ws_final_sched elev markers clen d o1' o2' ∧
      V1.ws_final_sched elev markers clen d o1 o2 = V1.ws_final elev markers clen d) ∧
    (V2.ws_final_sched elev markers clen d u1 u2
        = V2.ws_final_sched elev markers clen d u1' u2' ∧
      V2.ws_final_sched elev markers clen d u1 u2 = V2.ws_final elev markers clen d) := by
  have e1 := V1.ws_final_sched_eq elev markers clen d o1 o2 ho1 ho2
  have e1' := V1.ws_final_sched_eq elev markers clen d o1' o2' ho1' ho2'
  have e2 := V2.ws_final_sched_eq_v2 elev markers clen d u1 u2 hu1 hu2
  have e2' := V2.ws_final_sched_eq_v2 elev markers clen d u1' u2' hu1' hu2'
  exact ⟨⟨by rw [e1, e1'], e1⟩, ⟨by rw [e2, e2'], e2⟩⟩

/-- Witness for claim C6 at a concrete input: two chunks processed in
opposite orders in both passes and both strategies. -/
theorem claim_C6_determinism_witness :
    (V1.ws_final_sched [0, 0, 0, 0] [1, 0, 0, 2] 2 1 [1, 0] [1, 0]
        = V1.ws_final_sched [0, 0, 0, 0] [1, 0, 0, 2] 2 1 [0, 1] [0, 1] ∧
      V1.ws_final_sched [0, 0, 0, 0] [1, 0, 0, 2] 2 1 [1, 0] [1, 0]
        = V1.ws_final [0, 0, 0, 0] [1, 0, 0, 2] 2 1) ∧
    (V2.ws_final_sched [0, 0, 0, 0] [1, 0, 0, 2] 2 1 [1, 0] [1, 0]
        = V2.ws_final_sched [0, 0, 0, 0] [1, 0, 0, 2] 2 1 [0, 1] [0, 1] ∧
      V2.ws_final_sched [0, 0, 0, 0] [1, 0, 0, 2] 2 1 [1, 0] [1, 0]
        = V2.ws_final [0, 0, 0, 0] [1, 0, 0, 2] 2 1) :=
  claim_C6_determinism [0, 0, 0, 0] [1, 0, 0, 2] 2 1 [1, 0] [1, 0] [0, 1] [0, 1]
    [1, 0] [1, 0] [0, 1] [0, 1]
    (by decide) (by decide) (by decide) (by decide)
    (by decide) (by decide) (by decide) (by decide)

/-! ### Flood totality: closure invariant, termination, and 1-D propagation -/

theorem selMin_perm {q : List QEntry} {e : QEntry} {rest : List QEntry}
    (h : selMin q = some (e, rest)) : q.Perm (e :: rest) := by
  induction q generalizing e rest with
  | nil => simp [selMin] at h
  | cons x xs ih =>
    simp only [selMin] at h
    cases hsel : selMin xs <;> rw [hsel] at h
    · simp only [Option.some.injEq, Prod.mk.injEq] at h
      rw [← h.1, ← h.2]
      have hn : xs = [] := selMin_eq_none.mp hsel
      rw [hn]
    · rename_i p
      cases p with
      | mk m rest2 =>
        by_cases hk2 : keyLt m x
        · simp [hk2] at h
          obtain ⟨he, hr⟩ := h
          rw [← hr, ← he]
          have h1 : (x :: xs).Perm (x :: (m :: rest2)) := List.Perm.cons x (ih hsel)
          exact h1.trans (List.Perm.swap m x rest2)
        · simp [hk2] at h
          rw [← h.1, ← h.2]

theorem pushNb_queue_mem (elev : List ℕ) (mask : Option (List Bool)) (lab nb : ℕ)
    (st : WS) : ∀ x ∈ st.queue, x ∈ (pushNb elev mask lab nb st).queue := by
  intro x hx
  unfold pushNb
  split
  · exact List.mem_cons_of_mem _ hx
  · exact hx

theorem pushNb_labels_or_queue (elev : List ℕ) (mask : Option (List Bool)) (lab nb : ℕ)
    (st : WS) (i : ℕ) (h : (pushNb elev mask lab nb st).labels.getD i 0 ≠ 0) :
    st.labels.getD i 0 ≠ 0 ∨
      ∃ en ∈ (pushNb elev mask lab nb st).queue, en.2.2 = i := by
  by_cases hi : st.labels.getD i 0 = 0
  · right
    unfold pushNb at h ⊢
    split at h
    · rename_i hcond
      split
      · by_cases hin : i = nb
        · subst hin
          exact ⟨(elev.getD i 0, st.ctr, i), by simp, rfl⟩
        · rw [getD_set_ne lab (fun hcontra => hin hcontra.symm)] at h
          exact absurd hi h
      · rename_i hcond2
        exact absurd hcond hcond2
    · exact absurd hi h
  · left
    exact hi

/-- After a (possible) flood of neighbor `nb` with a nonzero label, `nb` is
labeled whenever it exists and is mask-eligible. -/
theorem pushNb_after (elev : List ℕ) (mask : Option (List Bool)) (lab nb : ℕ)
    (st : WS) (hlab : lab ≠ 0) (hnb : nb < st.labels.length)
    (hmk : maskOk mask nb = true) :
    (pushNb elev mask lab nb st).labels.getD nb 0 ≠ 0 := by
  unfold pushNb
  by_cases h0 : st.labels.getD nb 0 = 0
  · rw [if_pos ⟨hnb, h0, hmk⟩]
    show (st.labels.set nb lab).getD nb 0 ≠ 0
    rw [getD_set_self lab hnb]
    exact hlab
  · split
    · rename_i hcond
      exact absurd hcond.2.1 h0
    · exact h0

/-- Neighborhood closure of a label image: every labeled cell has labeled
mask-eligible neighbors. -/
def closedLabels (mask : Option (List Bool)) (lab : List ℕ) : Prop :=
  ∀ i, lab.getD i 0 ≠ 0 →
    (i ≠ 0 → maskOk mask (i - 1) = true → lab.getD (i - 1) 0 ≠ 0) ∧
    (i + 1 < lab.length → maskOk mask (i + 1) = true → lab.getD (i + 1) 0 ≠ 0)

/-- Closure invariant of a running flood: every labeled cell is still on the
frontier queue or already has labeled mask-eligible neighbors. -/
def CInv (mask : Option (List Bool)) (st : WS) : Prop :=
  ∀ i, st.labels.getD i 0 ≠ 0 →
    (∃ en ∈ st.queue, en.2.2 = i) ∨
    ((i ≠ 0 → maskOk mask (i - 1) = true → st.labels.getD (i - 1) 0 ≠ 0) ∧
      (i + 1 < st.labels.length → maskOk mask (i + 1) = true →
        st.labels.getD (i + 1) 0 ≠ 0))

theorem initWS_CInv (elev markers : List ℕ) (mask : Option (List Bool)) :
    CInv mask (initWS elev markers) := by
  intro i hi
  left
  have hlt : i < markers.length := by
    by_contra hge
    exact hi (List.getD_eq_default markers 0 (by omega))
  refine ⟨(elev.getD i 0, i, i), ?_, rfl⟩
  simp only [initWS, List.mem_filterMap, List.mem_range]
  have hm : markers.getD i 0 ≠ 0 := hi
  exact ⟨i, hlt, by rw [if_neg hm]⟩

theorem getD_ne_zero_lt {l : List ℕ} {i : ℕ} (h : l.getD i 0 ≠ 0) : i < l.length := by
  by_contra hge
  exact h (List.getD_eq_default l 0 (by omega))

theorem step_CInv {elev : List ℕ} {mask : Option (List Bool)} {st st' : WS}
    (h : step elev mask st = some st') (hq : QInv st) (hcinv : CInv mask st) :
    CInv mask st' := by
  obtain ⟨en, rest, hsel, hst⟩ := step_some h
  have hlab : st.labels.getD en.2.2 0 ≠ 0 := hq en (selMin_mem hsel)
  have hperm := selMin_perm hsel
  have hclen : en.2.2 < st.labels.length := getD_ne_zero_lt hlab
  have hst2labels : (if en.2.2 = 0 then WS.mk st.labels rest st.ctr
      else pushNb elev mask (st.labels.getD en.2.2 0) (en.2.2 - 1)
        (WS.mk st.labels rest st.ctr)).labels.length = st.labels.length := by
    split
    · rfl
    · rw [pushNb_labels_length]
  have hst2mono : ∀ i, st.labels.getD i 0 ≠ 0 →
      (if en.2.2 = 0 then WS.mk st.labels rest st.ctr
        else pushNb elev mask (st.labels.getD en.2.2 0) (en.2.2 - 1)
          (WS.mk st.labels rest st.ctr)).labels.getD i 0 = st.labels.getD i 0 := by
    intro i hi
    split
    · rfl
    · exact pushNb_getD_ne_zero _ _ _ _ _ hi
  have hstlen : st'.labels.length = st.labels.length := by
    rw [hst, pushNb_labels_length, hst2labels]
  have hstmono : ∀ i, st.labels.getD i 0 ≠ 0 → st'.labels.getD i 0 = st.labels.getD i 0 := by
    intro i hi
    rw [hst, pushNb_getD_ne_zero _ _ _ _ _ (by rw [hst2mono i hi]; exact hi),
      hst2mono i hi]
  have hqueue2 : ∀ x ∈ rest, x ∈ (if en.2.2 = 0 then WS.mk st.labels rest st.ctr
      else pushNb elev mask (st.labels.getD en.2.2 0) (en.2.2 - 1)
        (WS.mk st.labels rest st.ctr)).queue := by
    intro x hx
    split
    · exact hx
    · exact pushNb_queue_mem _ _ _ _ _ x hx
  have hqueue' : ∀ x ∈ rest, x ∈ st'.queue := by
    intro x hx
    rw [hst]
    exact pushNb_queue_mem _ _ _ _ _ x (hqueue2 x hx)
  intro i hi
  by_cases hold : st.labels.getD i 0 ≠ 0
  · by_cases hic : i = en.2.2
    · -- the popped cell: both neighbors are now labeled (when eligible)
      subst hic
      right
      constructor
      · intro hi0 hmk
        have h2 : (if en.2.2 = 0 then WS.mk st.labels rest st.ctr
            else pushNb elev mask (st.labels.getD en.2.2 0) (en.2.2 - 1)
              (WS.mk st.labels rest st.ctr)).labels.getD (en.2.2 - 1) 0 ≠ 0 := by
          rw [if_neg hi0]
          exact pushNb_after elev mask _ _ _ hlab
            (show en.2.2 - 1 < st.labels.length by omega) hmk
        rw [hst]
        rw [pushNb_getD_ne_zero _ _ _ _ _ h2]
        exact h2
      · intro hi1 hmk
        rw [hstlen] at hi1
        rw [hst]
        exact pushNb_after elev mask _ _ _ hlab (by rw [hst2labels]; exact hi1) hmk
    · rcases hcinv i hold with ⟨en2, hen2, hcell⟩ | hclosed
      · left
        have hne : en2 ≠ en := by
          intro hcontra
          rw [hcontra] at hcell
          exact hic hcell.symm
        have hmem2 : en2 ∈ en :: rest := hperm.mem_iff.mp hen2
        rcases List.mem_cons.mp hmem2 with hcontra | hmem
        · exact absurd hcontra hne
        · exact ⟨en2, hqueue' en2 hmem, hcell⟩
      · right
        refine ⟨fun hi0 hmk => ?_, fun hi1 hmk => ?_⟩
        · rw [hstmono _ (hclosed.1 hi0 hmk)]
          exact hclosed.1 hi0 hmk
        · rw [hstlen] at hi1
          rw [hstmono _ (hclosed.2 hi1 hmk)]
          exact hclosed.2 hi1 hmk
  · -- freshly labeled cell: it was pushed, so it is on the queue
    left
    push_neg at hold
    by_cases hc0 : en.2.2 = 0
    · have hst0 : st' = pushNb elev mask (st.labels.getD en.2.2 0) (en.2.2 + 1)
          (WS.mk st.labels rest st.ctr) := by
        rw [hst, if_pos hc0]
      rw [hst0] at hi
      rcases pushNb_labels_or_queue _ _ _ _ _ _ hi with h2 | h2
      · exact absurd hold h2
      · obtain ⟨en3, hen3, hcell3⟩ := h2
        rw [hst0]
        exact ⟨en3, hen3, hcell3⟩
    · have hst0 : st' = pushNb elev mask (st.labels.getD en.2.2 0) (en.2.2 + 1)
          (pushNb elev mask (st.labels.getD en.2.2 0) (en.2.2 - 1)
            (WS.mk st.labels rest st.ctr)) := by
        rw [hst, if_neg hc0]
      rw [hst0] at hi
      rcases pushNb_labels_or_queue _ _ _ _ _ _ hi with h2 | h2
      · rcases pushNb_labels_or_queue _ _ _ _ _ _ h2 with h3 | h3
        · exact absurd hold h3
        · obtain ⟨en3, hen3, hcell3⟩ := h3
          refine ⟨en3, ?_, hcell3⟩
          rw [hst0]
          exact pushNb_queue_mem _ _ _ _ _ en3 hen3
      · obtain ⟨en3, hen3, hcell3⟩ := h2
        rw [hst0]
        exact ⟨en3, hen3, hcell3⟩

theorem runF_CInv (elev : List ℕ) (mask : Option (List Bool)) (f : ℕ) (st : WS)
    (hq : QInv st) (hcinv : CInv mask st) : CInv mask (runF elev mask f st) := by
  induction f generalizing st with
  | zero => exact hcinv
  | succ f ih =>
    rw [runF]
    cases hstep : step elev mask st
    · exact hcinv
    · exact ih _ (step_QInv hstep hq) (step_CInv hstep hq hcinv)

/-! ### Termination: the flood fuel is always sufficient -/

/-- Number of unlabeled cells. -/
def countZeros : List ℕ → ℕ
  | [] => 0
  | x :: xs => (if x = 0 then 1 else 0) + countZeros xs

theorem countZeros_set {l : List ℕ} {i v : ℕ} (hi : i < l.length)
    (h0 : l.getD i 0 = 0) (hv : v ≠ 0) :
    countZeros (l.set i v) + 1 = countZeros l := by
  induction l generalizing i with
  | nil => simp at hi
  | cons x xs ih =>
    cases i with
    | zero =>
      have hx : x = 0 := h0
      rw [List.set_cons_zero]
      simp [countZeros, hx, hv]
      omega
    | succ i =>
      rw [List.set_cons_succ]
      simp only [countZeros]
      have := ih (by simpa using hi) h0
      omega

/-- The flood measure: pending queue entries plus unlabeled cells. -/
def wsMeasure (st : WS) : ℕ := st.queue.length + countZeros st.labels

theorem pushNb_measure (elev : List ℕ) (mask : Option (List Bool)) (lab nb : ℕ)
    (st : WS) (hlab : lab ≠ 0) :
    wsMeasure (pushNb elev mask lab nb st) ≤ wsMeasure st := by
  unfold pushNb wsMeasure
  split
  · rename_i hcond
    simp only [List.length_cons]
    have := countZeros_set hcond.1 hcond.2.1 hlab
    omega
  · exact le_refl _

theorem step_measure {elev : List ℕ} {mask : Option (List Bool)} {st st' : WS}
    (h : step elev mask st = some st') (hq : QInv st) :
    wsMeasure st' < wsMeasure st := by
  obtain ⟨en, rest, hsel, hst⟩ := step_some h
  have hlab : st.labels.getD en.2.2 0 ≠ 0 := hq en (selMin_mem hsel)
  have hlen := selMin_rest_length hsel
  have hm1 : wsMeasure (WS.mk st.labels rest st.ctr) + 1 = wsMeasure st := by
    show rest.length + countZeros st.labels + 1 = st.queue.length + countZeros st.labels
    omega
  have hm2 : wsMeasure (if en.2.2 = 0 then WS.mk st.labels rest st.ctr
      else pushNb elev mask (st.labels.getD en.2.2 0) (en.2.2 - 1)
        (WS.mk st.labels rest st.ctr)) ≤ wsMeasure (WS.mk st.labels rest st.ctr) := by
    split
    · exact le_refl _
    · exact pushNb_measure _ _ _ _ _ hlab
  have hm3 := pushNb_measure elev mask (st.labels.getD en.2.2 0) (en.2.2 + 1)
    (if en.2.2 = 0 then WS.mk st.labels rest st.ctr
      else pushNb elev mask (st.labels.getD en.2.2 0) (en.2.2 - 1)
        (WS.mk st.labels rest st.ctr)) hlab
  rw [hst]
  omega

theorem runF_empties (elev : List ℕ) (mask : Option (List Bool)) :
    ∀ (f : ℕ) (st : WS), QInv st → wsMeasure st ≤ f →
      (runF elev mask f st).queue = [] := by
  intro f
  induction f with
  | zero =>
    intro st hq hf
    have h0 : st.queue.length = 0 := by
      unfold wsMeasure at hf
      omega
    exact List.length_eq_zero.mp h0
  | succ f ih =>
    intro st hq hf
    rw [runF]
    cases hstep : step elev mask st
    · have hnone : selMin st.queue = none := by
        cases hsel : selMin st.queue
        · rfl
        · rename_i p
          unfold step at hstep
          rw [hsel] at hstep
          cases p
          exact absurd hstep (by simp)
      exact selMin_eq_none.mp hnone
    · rename_i st'
      exact ih st' (step_QInv hstep hq) (by
        have := step_measure hstep hq
        omega)

theorem length_filterMap_countZeros (f : ℕ → QEntry) :
    ∀ (l : List ℕ),
      ((List.range l.length).filterMap fun i =>
        if l.getD i 0 = 0 then none else some (f i)).length + countZeros l = l.length := by
  intro l
  induction l generalizing f with
  | nil => simp [countZeros]
  | cons x xs ih =>
    have hrange : List.range (x :: xs).length = 0 :: (List.range xs.length).map Nat.succ := by
      rw [List.length_cons, List.range_succ_eq_map]
    rw [hrange]
    simp only [List.filterMap_cons]
    rw [List.filterMap_map]
    have hcomp : ((fun i => if (x :: xs).getD i 0 = 0 then none else some (f i)) ∘ Nat.succ)
        = fun i => if xs.getD i 0 = 0 then none else some (f (i + 1)) := by
      funext i
      rfl
    rw [hcomp]
    have hx : (x :: xs).getD 0 0 = x := rfl
    have hthis : ((List.range xs.length).filterMap fun i =>
        if xs.getD i 0 = 0 then none else some (f (i + 1))).length + countZeros xs
        = xs.length := ih (fun i => f (i + 1))
    by_cases hx0 : x = 0
    · rw [hx, if_pos hx0]
      show ((List.range xs.length).filterMap fun i =>
        if xs.getD i 0 = 0 then none else some (f (i + 1))).length
          + countZeros (x :: xs) = (x :: xs).length
      have hcz : countZeros (x :: xs) = 1 + countZeros xs := by
        simp [countZeros, hx0]
      rw [hcz, List.length_cons]
      omega
    · rw [hx, if_neg hx0]
      show (f 0 :: (List.range xs.length).filterMap fun i =>
        if xs.getD i 0 = 0 then none else some (f (i + 1))).length
          + countZeros (x :: xs) = (x :: xs).length
      have hcz : countZeros (x :: xs) = countZeros xs := by
        simp [countZeros, hx0]
      rw [hcz, List.length_cons, List.length_cons]
      omega

theorem initWS_measure (elev markers : List ℕ) :
    wsMeasure (initWS elev markers) = markers.length := by
  show ((List.range markers.length).filterMap fun i =>
    if markers.getD i 0 = 0 then none else some (elev.getD i 0, i, i)).length
      + countZeros markers = markers.length
  exact length_filterMap_countZeros (fun i => (elev.getD i 0, i, i)) markers

/-- The flood output (with recovery) is neighborhood-closed: every labeled
cell has labeled mask-eligible neighbors. -/
theorem floodOr0_closed (elev markers : List ℕ) (mask : Option (List Bool)) :
    closedLabels mask (floodOr0 elev markers mask) := by
  by_cases hall : markers.all (fun x => x == 0) = true
  · rw [floodOr0, flood, if_pos hall]
    intro i hi
    exact absurd (getD_replicate_zero _ _) hi
  · rw [floodOr0, flood, if_neg hall]
    have hq := runF_QInv elev mask (markers.length + 1) _ (initWS_QInv elev markers)
    have hcinv := runF_CInv elev mask (markers.length + 1) _ (initWS_QInv elev markers)
      (initWS_CInv elev markers mask)
    have hempty := runF_empties elev mask (markers.length + 1) (initWS elev markers)
      (initWS_QInv elev markers) (by rw [initWS_measure]; omega)
    intro i hi
    rcases hcinv i hi with ⟨en, hen, _⟩ | hclosed
    · rw [hempty] at hen
      simp at hen
    · exact hclosed

/-! ### Propagation through a closed label image -/

theorem closed_walk_up (mask : Option (List Bool)) (lab : List ℕ)
    (hcl : closedLabels mask lab) :
    ∀ (k a : ℕ), lab.getD a 0 ≠ 0 → a + k < lab.length →
      (∀ t, a < t → t ≤ a + k → maskOk mask t = false → lab.getD t 0 ≠ 0) →
      lab.getD (a + k) 0 ≠ 0 := by
  intro k
  induction k with
  | zero => intro a ha _ _; exact ha
  | succ k ih =>
    intro a ha hb hfall
    have hk : lab.getD (a + k) 0 ≠ 0 :=
      ih a ha (by omega) (fun t h1 h2 h3 => hfall t h1 (by omega) h3)
    by_cases hmk : maskOk mask (a + k + 1) = true
    · have := (hcl (a + k) hk).2 (by omega) hmk
      have harith : a + (k + 1) = a + k + 1 := by omega
      rw [harith]
      exact this
    · have harith : a + (k + 1) = a + k + 1 := by omega
      rw [harith]
      exact hfall (a + k + 1) (by omega) (by omega)
        (by simpa using hmk)

theorem closed_walk_down (mask : Option (List Bool)) (lab : List ℕ)
    (hcl : closedLabels mask lab) :
    ∀ (k a : ℕ), lab.getD a 0 ≠ 0 → k ≤ a →
      (∀ t, a - k ≤ t → t < a → maskOk mask t = false → lab.getD t 0 ≠ 0) →
      lab.getD (a - k) 0 ≠ 0 := by
  intro k
  induction k with
  | zero => intro a ha _ _; exact ha
  | succ k ih =>
    intro a ha hk hfall
    have hprev : lab.getD (a - k) 0 ≠ 0 :=
      ih a ha (by omega) (fun t h1 h2 h3 => hfall t (by omega) h2 h3)
    by_cases hmk : maskOk mask (a - k - 1) = true
    · have h2 := (hcl (a - k) hprev).1 (by omega) hmk
      have harith : a - (k + 1) = a - k - 1 := by omega
      rw [harith]
      exact h2
    · have harith : a - (k + 1) = a - k - 1 := by omega
      rw [harith]
      exact hfall (a - k - 1) (by omega) (by omega) (by simpa using hmk)

/-! ### Flood totality at the chunk level -/

theorem getD_P {l : List ℕ} {P : ℕ → Prop} (h0 : P 0) (hl : ∀ x ∈ l, P x) (i : ℕ) :
    P (l.getD i 0) := by
  rcases Nat.lt_or_ge i l.length with h | h
  · exact hl _ (getD_mem_of_lt l 0 h)
  · rw [List.getD_eq_default l 0 h]
    exact h0

/-- An unmasked flood labels every cell as soon as one marker is nonzero:
information propagates along the connected 1-D chunk. -/
theorem floodOr0_total_none (elev markers : List ℕ) {a j : ℕ}
    (ha : markers.getD a 0 ≠ 0) (hj : j < markers.length) :
    (floodOr0 elev markers none).getD j 0 ≠ 0 := by
  have hcl := floodOr0_closed elev markers none
  have hanchor : (floodOr0 elev markers none).getD a 0 ≠ 0 := by
    rw [floodOr0_markers _ _ _ _ ha]
    exact ha
  have hlen := floodOr0_length elev markers none
  have hnomask : ∀ t, maskOk none t = false → False := by
    intro t ht
    simp [maskOk] at ht
  rcases le_or_lt a j with hle | hlt
  · have := closed_walk_up none _ hcl (j - a) a hanchor
      (by rw [hlen]; omega)
      (fun t _ _ hfalse => absurd hfalse (by
        intro hf
        exact hnomask t hf))
    have harith : a + (j - a) = j := by omega
    rwa [harith] at this
  · have := closed_walk_down none _ hcl (a - j) a hanchor (by omega)
      (fun t _ _ hfalse => absurd hfalse (by
        intro hf
        exact hnomask t hf))
    have harith : a - (a - j) = j := by omega
    rwa [harith] at this

/-! ### Value tracking for the single-label scenario -/

theorem chunkList_values {α : Type} (c : ℕ) (hc : 0 < c) (l : List α) :
    ∀ ch ∈ chunkList c l, ∀ x ∈ ch, x ∈ l := by
  intro ch hch x hx
  obtain ⟨q, hq, hche⟩ := mem_getD_of_mem [] hch
  rw [chunkList_getD c hc q l] at hche
  rw [← hche] at hx
  exact (List.drop_sublist _ _).subset ((List.take_sublist _ _).subset hx)

theorem grab_overlap_values (chunk : List ℕ) (depth : ℕ) :
    ∀ x ∈ grab_overlap chunk depth, x = 0 ∨ x ∈ chunk := by
  intro x hx
  obtain ⟨i, hi, rfl⟩ := mem_range_map.mp hx
  split
  · right
    exact getD_mem_of_lt chunk 0 hi
  · left
    rfl

theorem mask_overlap_values (chunk : List ℕ) (depth lab : ℕ) :
    ∀ x ∈ mask_overlap chunk depth lab, x = lab ∨ x = 0 := by
  intro x hx
  obtain ⟨i, hi, rfl⟩ := mem_range_map.mp hx
  split
  · left; rfl
  · right; rfl

/-- Values of a constant-policy exchanged chunk array are zero, the fill
constant, or values of some input chunk. -/
theorem overlapL_const_values {P : ℕ → Prop} {d v : ℕ} {chs : List (List ℕ)}
    ( _h0 : P 0) (hv : P v) (h : ∀ ch ∈ chs, ∀ x ∈ ch, P x) :
    ∀ ch ∈ overlapL d (BPolicy.const v) chs, ∀ x ∈ ch, P x := by
  intro ch hch x hx
  obtain ⟨q, hq, rfl⟩ := mem_overlapL.mp hch
  have hval : ∀ i, i < chs.length → ∀ y ∈ chs.getD i [], P y := fun i hi y hy =>
    h _ (getD_mem_of_lt chs [] hi) y hy
  simp only [List.mem_append] at hx
  rcases hx with (hx | hx) | hx
  · unfold padL at hx
    split at hx
    · simp only [edgeFillL] at hx
      rw [List.eq_of_mem_replicate hx]
      exact hv
    · exact hval (q - 1) (by omega) x ((List.drop_sublist _ _).subset hx)
  · exact hval q hq x hx
  · unfold padR at hx
    split at hx
    · simp only [edgeFillR] at hx
      rw [List.eq_of_mem_replicate hx]
      exact hv
    · rename_i hq1
      exact hval (q + 1) (by omega) x ((List.take_sublist _ _).subset hx)

theorem V1.build_full_markers_values {P : ℕ → Prop} {labels ws : List ℕ} {depth : ℕ}
    (h0 : P 0) (hl : ∀ x ∈ labels, P x) (hw : ∀ x ∈ ws, P x) :
    ∀ x ∈ V1.build_full_markers labels ws depth, P x := by
  intro x hx
  obtain ⟨i, hi, rfl⟩ := mem_range_map.mp hx
  split
  · exact getD_P h0 hl i
  · refine getD_P h0 ?_ i
    intro y hy
    rcases grab_overlap_values ws depth y hy with h | h
    · rw [h]; exact h0
    · exact hw y h

theorem V2.build_full_markers_values_v2 {P : ℕ → Prop} {labels : List ℕ} {depth lab : ℕ}
    (h0 : P 0) (hl : ∀ x ∈ labels, P x) (hlab : P lab) :
    ∀ x ∈ V2.build_full_markers labels depth lab, P x := by
  intro x hx
  obtain ⟨i, hi, rfl⟩ := mem_range_map.mp hx
  split
  · exact getD_P h0 hl i
  · refine getD_P h0 ?_ i
    intro y hy
    rcases mask_overlap_values labels depth lab y hy with h | h
    · rw [h]; exact hlab
    · rw [h]; exact h0

theorem floodOr0_values_P {P : ℕ → Prop} (elev markers : List ℕ)
    (mask : Option (List Bool)) (h0 : P 0) (hm : ∀ x ∈ markers, P x) (i : ℕ) :
    P ((floodOr0 elev markers mask).getD i 0) := by
  rcases floodOr0_values elev markers mask i with h | h
  · rw [h]; exact h0
  · exact hm _ h

/-! ### The single-label, seed-in-every-chunk scenario -/

theorem mem_of_getD_val {l : List ℕ} {P : ℕ → Prop} (h : ∀ i, P (l.getD i 0)) :
    ∀ x ∈ l, P x := by
  intro x hx
  obtain ⟨j, hjb, hje⟩ := mem_getD_of_mem 0 hx
  rw [← hje]
  exact h j

namespace V1

theorem wsFp_values {P : ℕ → Prop} (elev markers : List ℕ) (clen d : ℕ)
    (h0 : P 0) (hm : ∀ x ∈ markers, P x) (hc : 0 < clen) :
    ∀ ch ∈ ws_fp elev markers clen d, ∀ x ∈ ch, P x := by
  have hmop : ∀ ch ∈ ws_markers_op markers clen d, ∀ x ∈ ch, P x :=
    overlapL_nearest_values h0 (fun ch hch x hx =>
      hm x (chunkList_values clen hc markers ch hch x hx))
  intro ch hch
  obtain ⟨q, hq, hche⟩ := mem_getD_of_mem [] hch
  rw [ws_fp] at hche hq
  rw [zipWith_getD _ _ _ [] [] [] q hq] at hche
  rw [← hche]
  apply mem_of_getD_val
  intro j
  apply floodOr0_values_P _ _ _ h0
  apply hmop
  apply getD_mem_of_lt
  rw [List.length_zipWith] at hq
  omega

theorem fullLabels_values {P : ℕ → Prop} (elev markers : List ℕ) (clen d : ℕ)
    (h0 : P 0) (hm : ∀ x ∈ markers, P x) (hc : 0 < clen) :
    ∀ ch ∈ full_labels_op elev markers clen d, ∀ x ∈ ch, P x := by
  have hmop : ∀ ch ∈ ws_markers_op markers clen d, ∀ x ∈ ch, P x :=
    overlapL_nearest_values h0 (fun ch hch x hx =>
      hm x (chunkList_values clen hc markers ch hch x hx))
  have hnb : ∀ ch ∈ ws_neighbors elev markers clen d, ∀ x ∈ ch, P x :=
    overlapL_nearest_values h0
      (trimL_values (wsFp_values elev markers clen d h0 hm hc))
  intro ch hch
  obtain ⟨q, hq, hche⟩ := mem_getD_of_mem [] hch
  rw [full_labels_op] at hche hq
  rw [zipWith_getD _ _ _ [] [] [] q hq] at hche
  rw [← hche]
  rw [List.length_zipWith] at hq
  exact build_full_markers_values h0
    (hmop _ (getD_mem_of_lt _ [] (by omega)))
    (hnb _ (getD_mem_of_lt _ [] (by omega)))

/-- In the single-label scenario with a seed in every chunk, every cell of
the DirectSharing final output carries the common label. -/
theorem final_L (elev markers : List ℕ) (clen d L : ℕ) (hc : 0 < clen)
    (hdvd : clen ∣ markers.length) (hlen : elev.length = markers.length)
    (hd : d ≤ clen) ( _hL : L ≠ 0)
    (hvals : ∀ x ∈ markers, x = 0 ∨ x = L)
    (hseed : ∀ q < markers.length / clen, ∃ r < clen, markers.getD (q * clen + r) 0 ≠ 0)
    {i : ℕ} (hi : i < markers.length) :
    (ws_final elev markers clen d).getD i 0 = L := by
  have hq : i / clen < markers.length / clen := by
    rw [Nat.div_lt_iff_lt_mul hc]
    have := n_eq_k_mul hc hdvd
    omega
  have hr : i % clen < clen := Nat.mod_lt i hc
  obtain ⟨r0, hr0, hseed0⟩ := hseed (i / clen) hq
  have hfl := fullLabels_chunksLen elev markers clen d hc hdvd hlen hd
  -- the merged markers of chunk i / clen hold the original seed
  have hfull : ((full_labels_op elev markers clen d).getD (i / clen) []).getD
      (d + r0) 0 = markers.getD (i / clen * clen + r0) 0 := by
    rw [fullLabels_getD elev markers clen d hc hdvd hlen hd hq]
    rw [build_full_markers_getD _ _ d (by
      rw [chunksLen_getD_length (wsNeighbors_chunksLen elev markers clen d hc hdvd hlen hd) hq]
      omega)]
    rw [mOp_core markers clen d hc hdvd hd hq hr0]
    rw [if_pos (by omega)]
  have hflq : ((full_labels_op elev markers clen d).getD (i / clen) []).length
      = clen + 2 * d := chunksLen_getD_length hfl hq
  have hvalsfl : ∀ x ∈ (full_labels_op elev markers clen d).getD (i / clen) [],
      x = 0 ∨ x = L := by
    apply fullLabels_values elev markers clen d (by left; rfl) hvals hc
    apply getD_mem_of_lt
    rw [hfl.1]
    exact hq
  rw [final_cell elev markers clen d hc hdvd hlen hd hi,
    wsSp_getD elev markers clen d hc hdvd hlen hd hq]
  have hnz : (floodOr0 ((hmax_op elev clen d).getD (i / clen) [])
      ((full_labels_op elev markers clen d).getD (i / clen) []) none).getD
        (d + i % clen) 0 ≠ 0 := by
    apply floodOr0_total_none
    · rw [hfull]
      exact hseed0
    · rw [hflq]
      omega
  have hP := floodOr0_values_P ((hmax_op elev clen d).getD (i / clen) [])
    ((full_labels_op elev markers clen d).getD (i / clen) []) none
    (P := fun x => x = 0 ∨ x = L) (by left; rfl) hvalsfl (d + i % clen)
  rcases hP with h | h
  · exact absurd h hnz
  · exact h

end V1

theorem remove_label_getD {ch : List ℕ} {s i : ℕ} (hi : i < ch.length) :
    (remove_label ch s).getD i 0 = if ch.getD i 0 = s then 0 else ch.getD i 0 := by
  rw [remove_label, List.getD_eq_getElem _ _ (by simpa using hi), List.getElem_map,
    List.getD_eq_getElem _ _ hi]

namespace V2

theorem mOp_seed (markers : List ℕ) (clen d : ℕ) (hc : 0 < clen)
    (hdvd : clen ∣ markers.length) (hd : d ≤ clen) {q r : ℕ}
    (hq : q < markers.length / clen) (hr : r < clen)
    (hm : markers.getD (q * clen + r) 0 ≠ 0) :
    ((ws_markers_op markers clen d).getD q []).getD (d + r) 0 =
      markers.getD (q * clen + r) 0 := by
  have hov := ovConst_chunksLen markers clen d hc hdvd hd
  rw [mOp_getD markers clen d hc hdvd hd hq,
    build_full_markers_getD_v2 _ d _ (by rw [chunksLen_getD_length hov hq]; omega),
    ovConst_core markers clen d hc hdvd hd hq hr, if_pos (by omega)]

theorem wsFp_values_v2 {P : ℕ → Prop} (elev markers : List ℕ) (clen d : ℕ)
    (h0 : P 0) (hm : ∀ x ∈ markers, P x) (hs : P (boundary_label markers))
    (hc : 0 < clen) :
    ∀ ch ∈ ws_fp elev markers clen d, ∀ x ∈ ch, P x := by
  have hov : ∀ ch ∈ overlapL d (BPolicy.const (boundary_label markers))
      (chunkList clen markers), ∀ x ∈ ch, P x :=
    overlapL_const_values h0 hs (fun ch hch x hx =>
      hm x (chunkList_values clen hc markers ch hch x hx))
  have hmop : ∀ ch ∈ ws_markers_op markers clen d, ∀ x ∈ ch, P x := by
    intro ch hch
    rw [ws_markers_op] at hch
    obtain ⟨ch0, hch0, rfl⟩ := List.mem_map.mp hch
    exact build_full_markers_values_v2 h0 (hov ch0 hch0) hs
  intro ch hch
  obtain ⟨q, hq, hche⟩ := mem_getD_of_mem [] hch
  rw [ws_fp] at hche hq
  rw [zipWith_getD _ _ _ [] [] [] q hq] at hche
  rw [← hche]
  apply mem_of_getD_val
  intro j
  apply floodOr0_values_P _ _ _ h0
  apply hmop
  apply getD_mem_of_lt
  rw [List.length_zipWith] at hq
  omega

/-- With a seed in its core, the first pass labels every cell of the padded
chunk (with a real label or the sentinel). -/
theorem fp_total (elev markers : List ℕ) (clen d : ℕ) (hc : 0 < clen)
    (hdvd : clen ∣ markers.length) (hlen : elev.length = markers.length) (hd : d ≤ clen)
    {q r0 : ℕ} (hq : q < markers.length / clen) (hr0 : r0 < clen)
    (hseed0 : markers.getD (q * clen + r0) 0 ≠ 0) :
    ∀ j < clen + 2 * d, ((ws_fp elev markers clen d).getD q []).getD j 0 ≠ 0 := by
  intro j hj
  have hmop := mOp_chunksLen_v2 markers clen d hc hdvd hd
  rw [wsFp_getD_v2 elev markers clen d hc hdvd hlen hd hq]
  apply floodOr0_total_none
  · rw [mOp_seed markers clen d hc hdvd hd hq hr0 hseed0]
    exact hseed0
  · rw [chunksLen_getD_length hmop hq]
    exact hj

theorem mask_cell (elev markers : List ℕ) (clen d : ℕ) (hc : 0 < clen)
    (hdvd : clen ∣ markers.length) (hlen : elev.length = markers.length) (hd : d ≤ clen)
    {q t : ℕ} (hq : q < markers.length / clen) (ht : t < clen + 2 * d) :
    ((ws_mask elev markers clen d).getD q []).getD t false =
      decide (((ws_fp elev markers clen d).getD q []).getD t 0 = boundary_label markers) := by
  have hfp := wsFp_chunksLen_v2 elev markers clen d hc hdvd hlen hd
  rw [mask_getD elev markers clen d hc hdvd hlen hd hq]
  have hb : t < ((ws_fp elev markers clen d).getD q []).length := by
    rw [chunksLen_getD_length hfp hq]
    exact ht
  rw [List.getD_eq_getElem _ _ (by simpa using hb), List.getElem_map,
    ← List.getD_eq_getElem _ _ hb]

theorem mSp_core (elev markers : List ℕ) (clen d : ℕ) (hc : 0 < clen)
    (hdvd : clen ∣ markers.length) (hlen : elev.length = markers.length) (hd : d ≤ clen)
    {q r : ℕ} (hq : q < markers.length / clen) (hr : r < clen) :
    ((ws_markers_sp elev markers clen d).getD q []).getD (d + r) 0 =
      (remove_label ((ws_fp elev markers clen d).getD q [])
        (boundary_label markers)).getD (d + r) 0 := by
  have hfp := wsFp_chunksLen_v2 elev markers clen d hc hdvd hlen hd
  have hrm := chunksLen_map (fun ch => remove_label ch (boundary_label markers))
    (fun a => remove_label_length a _) hfp
  have htrim := chunksLen_trimL d hrm
  have harith : clen + 2 * d - 2 * d = clen := by omega
  rw [harith] at htrim
  have hq2 : q < (trimL d ((ws_fp elev markers clen d).map
      fun ch => remove_label ch (boundary_label markers))).length := by
    rw [htrim.1]; exact hq
  rw [ws_markers_sp, overlapL_core_getD d _ _ (fun ch hm => by
      rw [htrim.2 ch hm]; exact hd) hq2 (by rw [chunksLen_getD_length htrim hq]; exact hr)]
  rw [show (trimL d ((ws_fp elev markers clen d).map
      fun ch => remove_label ch (boundary_label markers))).getD q [] =
    trimChunk d (((ws_fp elev markers clen d).map
      fun ch => remove_label ch (boundary_label markers)).getD q []) from
    getD_map_list _ _ _ (by rw [List.length_map, hfp.1]; exact hq)]
  rw [trimChunk_getD d _ (by
    rw [getD_map_list _ _ _ (by rw [hfp.1]; exact hq), remove_label_length,
      chunksLen_getD_length hfp hq]
    omega)]
  rw [getD_map_list _ _ _ (by rw [hfp.1]; exact hq)]

/-- In the single-label scenario with a seed in every chunk, every cell of
the SentinelBasinSharing final output carries the common label. -/
theorem final_L_v2 (elev markers : List ℕ) (clen d L : ℕ) (hc : 0 < clen)
    (hdvd : clen ∣ markers.length) (hlen : elev.length = markers.length)
    (hd : d ≤ clen) (hL : L ≠ 0)
    (hvals : ∀ x ∈ markers, x = 0 ∨ x = L)
    (hseed : ∀ q < markers.length / clen, ∃ r < clen, markers.getD (q * clen + r) 0 ≠ 0)
    {i : ℕ} (hi : i < markers.length) :
    (ws_final elev markers clen d).getD i 0 = L := by
  have hq : i / clen < markers.length / clen := by
    rw [Nat.div_lt_iff_lt_mul hc]
    have := n_eq_k_mul hc hdvd
    omega
  have hr : i % clen < clen := Nat.mod_lt i hc
  obtain ⟨r0, hr0, hseed0⟩ := hseed (i / clen) hq
  have hposlt : i / clen * clen + r0 < markers.length :=
    cell_lt hq hr0 (n_eq_k_mul hc hdvd)
  -- the common label is a marker value, hence below the sentinel
  have hLmem : L ∈ markers := by
    have hv := hvals _ (getD_mem_of_lt markers 0 hposlt)
    rcases hv with h | h
    · exact absurd h hseed0
    · rw [← h]
      exact getD_mem_of_lt markers 0 hposlt
  have hLs : L ≠ boundary_label markers := by
    have h1 := le_foldr_max markers L hLmem
    unfold boundary_label
    omega
  have hfp := wsFp_chunksLen_v2 elev markers clen d hc hdvd hlen hd
  have hfpq : ((ws_fp elev markers clen d).getD (i / clen) []).length = clen + 2 * d :=
    chunksLen_getD_length hfp hq
  -- first-pass values: zero, the common label, or the sentinel
  have hfpv : ∀ x ∈ (ws_fp elev markers clen d).getD (i / clen) [],
      x = 0 ∨ x = L ∨ x = boundary_label markers := by
    apply wsFp_values_v2 elev markers clen d
      (P := fun x => x = 0 ∨ x = L ∨ x = boundary_label markers) (by left; rfl)
      (fun x hx => by
        rcases hvals x hx with h | h
        · left; exact h
        · right; left; exact h)
      (by right; right; rfl) hc
    apply getD_mem_of_lt
    rw [hfp.1]
    exact hq
  have htotal := fp_total elev markers clen d hc hdvd hlen hd hq hr0 hseed0
  -- first-pass cells are the common label or the sentinel
  have hfpLs : ∀ j < clen + 2 * d,
      ((ws_fp elev markers clen d).getD (i / clen) []).getD j 0 = L ∨
      ((ws_fp elev markers clen d).getD (i / clen) []).getD j 0 = boundary_label markers := by
    intro j hj
    have hv := getD_P (l := (ws_fp elev markers clen d).getD (i / clen) [])
      (P := fun x => x = 0 ∨ x = L ∨ x = boundary_label markers)
      (by left; rfl) hfpv j
    rcases hv with h | h | h
    · exact absurd h (htotal j hj)
    · left; exact h
    · right; exact h
  -- second-pass markers at core cells are the sentinel-stripped first pass
  have hmspL : ∀ r < clen,
      ((ws_fp elev markers clen d).getD (i / clen) []).getD (d + r) 0 ≠
        boundary_label markers →
      ((ws_markers_sp elev markers clen d).getD (i / clen) []).getD (d + r) 0 = L := by
    intro r hrr hne
    rw [mSp_core elev markers clen d hc hdvd hlen hd hq hrr,
      remove_label_getD (by rw [hfpq]; omega), if_neg hne]
    rcases hfpLs (d + r) (by omega) with h | h
    · exact h
    · exact absurd h hne
  -- the seed cell of this chunk anchors the second pass
  have hfpseed : ((ws_fp elev markers clen d).getD (i / clen) []).getD (d + r0) 0 =
      markers.getD (i / clen * clen + r0) 0 := by
    rw [wsFp_getD_v2 elev markers clen d hc hdvd hlen hd hq,
      floodOr0_markers _ _ _ _ (by
        rw [mOp_seed markers clen d hc hdvd hd hq hr0 hseed0]
        exact hseed0),
      mOp_seed markers clen d hc hdvd hd hq hr0 hseed0]
  have hseedL : markers.getD (i / clen * clen + r0) 0 = L := by
    rcases hvals _ (getD_mem_of_lt markers 0 hposlt) with h | h
    · exact absurd h hseed0
    · exact h
  -- abbreviations for the second-pass flood of this chunk
  have hspq : (ws_sp elev markers clen d).getD (i / clen) [] =
      floodOr0 ((hmax_op elev clen d).getD (i / clen) [])
        ((ws_markers_sp elev markers clen d).getD (i / clen) [])
        (some ((ws_mask elev markers clen d).getD (i / clen) [])) :=
    wsSp_getD_v2 elev markers clen d hc hdvd hlen hd hq
  have hmsplen : ((ws_markers_sp elev markers clen d).getD (i / clen) []).length
      = clen + 2 * d :=
    chunksLen_getD_length (mSp_chunksLen elev markers clen d hc hdvd hlen hd) hq
  have hcl := floodOr0_closed ((hmax_op elev clen d).getD (i / clen) [])
    ((ws_markers_sp elev markers clen d).getD (i / clen) [])
    (some ((ws_mask elev markers clen d).getD (i / clen) []))
  -- mask-false core cells of the second pass keep their (nonzero) marker
  have hfall : ∀ t, d ≤ t → t < d + clen →
      maskOk (some ((ws_mask elev markers clen d).getD (i / clen) [])) t = false →
      (floodOr0 ((hmax_op elev clen d).getD (i / clen) [])
        ((ws_markers_sp elev markers clen d).getD (i / clen) [])
        (some ((ws_mask elev markers clen d).getD (i / clen) []))).getD t 0 ≠ 0 := by
    intro t ht1 ht2 hmf
    have hne : ((ws_fp elev markers clen d).getD (i / clen) []).getD t 0 ≠
        boundary_label markers := by
      have := mask_cell elev markers clen d hc hdvd hlen hd hq
        (show t < clen + 2 * d by omega)
      rw [show maskOk (some ((ws_mask elev markers clen d).getD (i / clen) [])) t =
        ((ws_mask elev markers clen d).getD (i / clen) []).getD t false from rfl] at hmf
      rw [this] at hmf
      simpa using hmf
    have hmark := hmspL (t - d) (by omega) (by
      rw [show d + (t - d) = t by omega]
      exact hne)
    rw [show d + (t - d) = t by omega] at hmark
    rw [floodOr0_markers _ _ _ _ (by rw [hmark]; exact hL)]
    rw [hmark]
    exact hL
  -- the anchor cell: the second pass keeps the seed's marker
  have hanchor : (floodOr0 ((hmax_op elev clen d).getD (i / clen) [])
      ((ws_markers_sp elev markers clen d).getD (i / clen) [])
      (some ((ws_mask elev markers clen d).getD (i / clen) []))).getD (d + r0) 0 ≠ 0 := by
    have hmark := hmspL r0 hr0 (by rw [hfpseed, hseedL]; exact hLs)
    rw [floodOr0_markers _ _ _ _ (by rw [hmark]; exact hL), hmark]
    exact hL
  -- masked totality on the core: walk from the anchor to the target cell
  have hsptotal : (floodOr0 ((hmax_op elev clen d).getD (i / clen) [])
      ((ws_markers_sp elev markers clen d).getD (i / clen) [])
      (some ((ws_mask elev markers clen d).getD (i / clen) []))).getD (d + i % clen) 0
        ≠ 0 := by
    have hflen : (floodOr0 ((hmax_op elev clen d).getD (i / clen) [])
        ((ws_markers_sp elev markers clen d).getD (i / clen) [])
        (some ((ws_mask elev markers clen d).getD (i / clen) []))).length
          = clen + 2 * d := by
      rw [floodOr0_length, hmsplen]
    rcases le_or_lt (d + r0) (d + i % clen) with hle | hlt
    · have := closed_walk_up _ _ hcl ((d + i % clen) - (d + r0)) (d + r0) hanchor
        (by rw [hflen]; omega)
        (fun t h1 h2 hmf => hfall t (by omega) (by omega) hmf)
      rwa [show d + r0 + ((d + i % clen) - (d + r0)) = d + i % clen by omega] at this
    · have := closed_walk_down _ _ hcl ((d + r0) - (d + i % clen)) (d + r0) hanchor
        (by omega)
        (fun t h1 h2 hmf => hfall t (by omega) (by omega) hmf)
      rwa [show d + r0 - ((d + r0) - (d + i % clen)) = d + i % clen by omega] at this
  -- second-pass values are zero or the common label
  have hspv : ∀ j, (floodOr0 ((hmax_op elev clen d).getD (i / clen) [])
      ((ws_markers_sp elev markers clen d).getD (i / clen) [])
      (some ((ws_mask elev markers clen d).getD (i / clen) []))).getD j 0 = 0 ∨
      (floodOr0 ((hmax_op elev clen d).getD (i / clen) [])
        ((ws_markers_sp elev markers clen d).getD (i / clen) [])
        (some ((ws_mask elev markers clen d).getD (i / clen) []))).getD j 0 = L := by
    intro j
    have hmspv : ∀ ch ∈ ws_markers_sp elev markers clen d, ∀ x ∈ ch,
        x = 0 ∨ x = L := by
      rw [ws_markers_sp]
      apply overlapL_nearest_values (P := fun x => x = 0 ∨ x = L) (by left; rfl)
      apply trimL_values
      intro ch hch x hx
      obtain ⟨ch0, hch0, rfl⟩ := List.mem_map.mp hch
      simp only [remove_label, List.mem_map] at hx
      obtain ⟨y, hy, rfl⟩ := hx
      have hyv := wsFp_values_v2 elev markers clen d
        (P := fun x => x = 0 ∨ x = L ∨ x = boundary_label markers) (by left; rfl)
        (fun x hxx => by
          rcases hvals x hxx with h | h
          · left; exact h
          · right; left; exact h)
        (by right; right; rfl) hc ch0 hch0 y hy
      by_cases hys : y = boundary_label markers
      · rw [if_pos hys]
        left; rfl
      · rw [if_neg hys]
        rcases hyv with h | h | h
        · left; exact h
        · right; exact h
        · exact absurd h hys
    apply floodOr0_values_P (P := fun x => x = 0 ∨ x = L) _ _ _ (by left; rfl) ?_ j
    apply hmspv
    apply getD_mem_of_lt
    rw [(mSp_chunksLen elev markers clen d hc hdvd hlen hd).1]
    exact hq
  -- assemble the final cell
  rw [final_cell_v2 elev markers clen d hc hdvd hlen hd hi,
    composed_getD elev markers clen d hc hdvd hlen hd hq,
    compose_getD _ _ _ (by rw [hfpq]; omega)]
  by_cases hmk : ((ws_mask elev markers clen d).getD (i / clen) []).getD (d + i % clen) false
  · rw [if_pos hmk, hspq]
    rcases hspv (d + i % clen) with h | h
    · rw [← hspq] at h
      rw [hspq] at h
      exact absurd h hsptotal
    · exact h
  · rw [if_neg hmk]
    have hne : ((ws_fp elev markers clen d).getD (i / clen) []).getD (d + i % clen) 0 ≠
        boundary_label markers := by
      have := mask_cell elev markers clen d hc hdvd hlen hd hq
        (show d + i % clen < clen + 2 * d by omega)
      rw [this] at hmk
      simpa using hmk
    rcases hfpLs (d + i % clen) (by omega) with h | h
    · exact h
    · exact absurd h hne

end V2

/-- Claim C1 (boundary continuity), corrected. As stated the claim is false:
label information crosses at most one chunk boundary per exchange round, so a
chunk without a seed of its own can stay all-zero even though its cells are
reachable from a seed on flat ground (see the counterexample). The amended
property: if every chunk contains a seed and all seeds carry one common label
L, then every cell of the final output of either strategy (DirectSharing and
SentinelBasinSharing) carries L — in particular any two mutually reachable
cells of adjacent chunks agree. -/
theorem claim_C1_boundary_continuity (elev markers : List ℕ) (clen d L : ℕ)
    (hc : 0 < clen) (hdvd : clen ∣ markers.length)
    (hlen : elev.length = markers.length) (hd : d ≤ clen) (hL : L ≠ 0)
    (hvals : ∀ x ∈ markers, x = 0 ∨ x = L)
    (hseed : ∀ q < markers.length / clen, ∃ r < clen, markers.getD (q * clen + r) 0 ≠ 0)
    {i : ℕ} (hi : i < markers.length) :
    (V1.ws_final elev markers clen d).getD i 0 = L ∧
    (V2.ws_final elev markers clen d).getD i 0 = L :=
  ⟨V1.final_L elev markers clen d L hc hdvd hlen hd hL hvals hseed hi,
   V2.final_L_v2 elev markers clen d L hc hdvd hlen hd hL hvals hseed hi⟩

theorem claim_C1_boundary_continuity_witness :
    (V1.ws_final (List.replicate 8 0) [1, 0, 0, 0, 1, 0, 0, 0] 4 1).getD 2 0 = 1 ∧
    (V2.ws_final (List.replicate 8 0) [1, 0, 0, 0, 1, 0, 0, 0] 4 1).getD 2 0 = 1 :=
  claim_C1_boundary_continuity (List.replicate 8 0) [1, 0, 0, 0, 1, 0, 0, 0] 4 1 1
    (by decide) (by decide) (by decide) (by decide) (by decide)
    (by decide) (by decide) (i := 2) (by decide)

/-- Counterexample to claim C1 as stated: on a perfectly flat elevation every
pair of cells is mutually reachable without crossing a higher cell, yet with a
seed only in the first of two chunks the SentinelBasinSharing final output
labels the first chunk 1 and leaves the second chunk 0 — adjacent cells 3 and
4 disagree. -/
theorem claim_C1_counterexample :
    (∀ x ∈ (List.replicate 8 0 : List ℕ), x = 0) ∧
    (V2.ws_final (List.replicate 8 0) [1, 0, 0, 0, 0, 0, 0, 0] 4 1).getD 3 0 = 1 ∧
    (V2.ws_final (List.replicate 8 0) [1, 0, 0, 0, 0, 0, 0, 0] 4 1).getD 4 0 = 0 := by
  decide

theorem claim_C2_sentinel_never_leaks_witness :
    (1 : ℕ) ∈ V2.ws_final [0, 0, 0, 0] [1, 0, 0, 2] 2 1 ∧
    (1 : ℕ) ≠ boundary_label [1, 0, 0, 2] :=
  ⟨by decide, claim_C2_sentinel_never_leaks [0, 0, 0, 0] [1, 0, 0, 2] 2 1 1 (by decide)⟩
